import Mathlib

/-!
# c_array_list: a shallow embedding of `array_list.c`

The container of `src/array_list.c` is a struct of a raw buffer and three
`size_t` fields.  The embedding keeps that layout:

* the buffer `data` is the list of the bytes of the allocated block, so a
  pointer into the block is a byte offset, and `memcpy`/`memmove`/`memcmp`
  act on bytes;
* `size_t` is 64 bits wide and `int` 32 bits wide (LP64); `size_t`
  arithmetic is reduced modulo `2^64`, the conversions between `int` and
  `size_t` are the C conversions (the out-of-range conversion to `int`
  wraps modulo `2^32`, as GCC and Clang define it);
* the outcome of every `malloc`/`realloc` call (block obtained, or `NULL`)
  is an explicit Boolean argument of the operation that makes the call;
* a store outside the allocated block is undefined behaviour in C; the
  model drops such a store (`List.set` past the end), a load outside the
  block reads nothing;
* a loop that may run forever (`while` in `arr_insertAll`) takes fuel and
  returns `none` when the fuel runs out; a `for` loop with a known number of
  iterations is a recursion on the iterations that are left.

A theorem about every list is about every `ArrayList` value whose block is
laid out as the struct says (`WellFormed`); `size ≤ capacity` is a separate
hypothesis.  Growth succeeding means that `realloc` returns a block and that
the doubled slot and byte counts are `size_t` values (`Doubles`,
`GrowthFits`), as they are for every block that exists on the machine.
-/

namespace ArrayListC

/-! ## Machine integers -/

/-- One byte of memory. -/
abbrev Byte := Nat

/-- Number of values of `size_t` (`SIZE_MAX + 1`). -/
def SIZE_MOD : Nat := 18446744073709551616

/-- Number of values of `int` (`UINT_MAX + 1`). -/
def INT_MOD : Nat := 4294967296

/-- Largest `int`. -/
def INT_MAX : Int := 2147483647

/-- Smallest `int`. -/
def INT_MIN : Int := -2147483648

/-- The macro `INIT_CAPACITY` of `array_list.h`. -/
def INIT_CAPACITY : Nat := 10

/-- Result of a `size_t` computation: reduction modulo `2^64`. -/
def wrap (n : Nat) : Nat := n % SIZE_MOD

/-- Difference `a - b` computed in `size_t`. -/
def wsub (a b : Nat) : Nat := (a + SIZE_MOD - b % SIZE_MOD) % SIZE_MOD

/-- Conversion of an `int` to `size_t` (value modulo `2^64`). -/
def toSizeT (x : Int) : Nat := (x % (SIZE_MOD : Int)).toNat

/-- Conversion of a `size_t` to `int`: the value when it fits, otherwise the
two's complement wrap-around. -/
def toInt (n : Nat) : Int :=
  if n % INT_MOD < 2147483648 then ((n % INT_MOD : Nat) : Int)
  else ((n % INT_MOD : Nat) : Int) - (INT_MOD : Int)

/-- A value of type `int`. -/
def IsInt (x : Int) : Prop := INT_MIN ≤ x ∧ x ≤ INT_MAX

instance (x : Int) : Decidable (IsInt x) := by unfold IsInt; infer_instance

/-! ## Memory -/

/-- Store the bytes `bs` at offsets `off, off+1, ...` of the block `mem`. -/
def store : List Byte → Nat → List Byte → List Byte
  | mem, _, [] => mem
  | mem, off, b :: bs => store (mem.set off b) (off + 1) bs

/-- The `n` bytes of the block `mem` from offset `off` on. -/
def load (mem : List Byte) (off n : Nat) : List Byte := (mem.drop off).take n

/-- The call `memcpy(mem + dest, src, n)`; `src` is the bytes that can be read
at the source pointer. -/
def memcpy (mem : List Byte) (dest : Nat) (src : List Byte) (n : Nat) : List Byte :=
  store mem dest (src.take n)

/-- The call `memmove(mem + dest, mem + src, n)`: the source bytes are read
before any byte is written. -/
def memmove (mem : List Byte) (dest src n : Nat) : List Byte :=
  store mem dest (load mem src n)

/-- The call `memcmp(a, b, n)`: zero when the first `n` bytes agree,
otherwise the difference of the first pair of bytes that differ. -/
def memcmp : List Byte → List Byte → Nat → Int
  | _, _, 0 => 0
  | a, b, n + 1 =>
    if a.headD 0 = b.headD 0 then memcmp a.tail b.tail n
    else (a.headD 0 : Int) - (b.headD 0 : Int)

/-- The call `malloc(n)`; `ok` tells whether a block was obtained.  `NULL` is
the block without bytes; the bytes of a fresh block, indeterminate in C, are
0 in the model. -/
def malloc (n : Nat) (ok : Bool) : List Byte :=
  if ok then List.replicate n 0 else []

/-- The call `realloc(mem, n)`; `ok` tells whether a block was obtained
(`none` is `NULL`).  The new block keeps the old bytes up to the smaller of
the two lengths; the bytes added, indeterminate in C, are 0 in the model. -/
def realloc (mem : List Byte) (n : Nat) (ok : Bool) : Option (List Byte) :=
  if ok then some (mem.take n ++ List.replicate (n - mem.length) 0) else none

/-! ## The container -/

/-- The struct `ArrayList` of `array_list.h`. -/
structure ArrayList where
  data : List Byte
  size : Nat
  capacity : Nat
  dataTypeSize : Nat
deriving DecidableEq

/-- A comparator argument `int (*cmpField)(void *, void *)`; `none` is the
null function pointer.  A pointer to an element is given to the comparator
as the bytes of that element. -/
abbrev Comparator := Option (List Byte → List Byte → Int)

/-- The function `genericComparator`. -/
def genericComparator (a b : List Byte) (dataTypeSize : Nat) (cmpField : Comparator) : Int :=
  match cmpField with
  | some f => f a b
  | none => memcmp a b dataTypeSize

/-- The function `arr_init`; `ok` is the outcome of its `malloc`. -/
def arr_init (dataTypeSize : Nat) (ok : Bool) : ArrayList :=
  { size := 0
    capacity := INIT_CAPACITY
    dataTypeSize := dataTypeSize
    data := malloc (wrap (INIT_CAPACITY * dataTypeSize)) ok }

/-- The function `arr_resize`; `ok` is the outcome of its `realloc`. -/
def arr_resize (l : ArrayList) (ok : Bool) : ArrayList :=
  let newCapacity := wrap (l.capacity * 2)
  match realloc l.data (wrap (newCapacity * l.dataTypeSize)) ok with
  | none => l
  | some newData => { l with data := newData, capacity := newCapacity }

/-- The function `arr_insert`; `ok` is the outcome of the `realloc` of the
`arr_resize` call, when that call is made. -/
def arr_insert (l : ArrayList) (data : List Byte) (ok : Bool) : Int × ArrayList :=
  let l1 := if l.size = l.capacity then arr_resize l ok else l
  let dest := wrap (l1.size * l1.dataTypeSize)
  (0, { l1 with data := memcpy l1.data dest data l1.dataTypeSize, size := wrap (l1.size + 1) })

/-- The `while` loop of `arr_insertAll`; `oks k` is the outcome of the
`realloc` of the `k`-th `arr_resize` call, `none` when the fuel runs out. -/
def insertAll_grow (count : Int) (oks : Nat → Bool) : Nat → Nat → ArrayList → Option ArrayList
  | 0, _, l => if wrap (l.size + toSizeT count) > l.capacity then none else some l
  | fuel + 1, k, l =>
    if wrap (l.size + toSizeT count) > l.capacity then
      insertAll_grow count oks fuel (k + 1) (arr_resize l (oks k))
    else some l

/-- The `for` loop of `arr_insertAll` with `n` iterations left, at loop
variable `i`; `args` are the variable arguments (a `va_arg` past the last
argument, undefined in C, reads no bytes). -/
def insertAll_copy (args : List (List Byte)) : Nat → Nat → ArrayList → ArrayList
  | 0, _, l => l
  | n + 1, i, l =>
    let data := args.getD i []
    let dest := wrap (l.size * l.dataTypeSize)
    insertAll_copy args n (i + 1)
      { l with data := memcpy l.data dest data l.dataTypeSize, size := wrap (l.size + 1) }

/-- The function `arr_insertAll`. -/
def arr_insertAll (l : ArrayList) (count : Int) (args : List (List Byte))
    (oks : Nat → Bool) (fuel : Nat) : Option (Int × ArrayList) :=
  match insertAll_grow count oks fuel 0 l with
  | none => none
  | some l1 => some (0, insertAll_copy args count.toNat 0 l1)

/-- The function `arr_delete`. -/
def arr_delete (l : ArrayList) (index : Int) : Int × ArrayList :=
  if index < 0 ∨ toSizeT index ≥ l.size then (-1, l)
  else
    let target := wrap (toSizeT index * l.dataTypeSize)
    let next := target + l.dataTypeSize
    let n := wrap (wsub (wsub l.size (toSizeT index)) 1 * l.dataTypeSize)
    (0, { l with data := memmove l.data target next n, size := wsub l.size 1 })

/-- The first loop of `arr_deleteAll`: the array `indices` filled from the
variable arguments, `n` iterations left at loop variable `i` (a `va_arg` past
the last argument, undefined in C, reads 0). -/
def deleteAll_read (args : List Int) : Nat → Nat → List Int
  | 0, _ => []
  | n + 1, i => args.getD i 0 :: deleteAll_read args n (i + 1)

/-- The inner loop of the sort of `arr_deleteAll`, `n` iterations left at
loop variable `j`. -/
def deleteAll_sortInner (i : Nat) : Nat → Nat → List Int → List Int
  | 0, _, indices => indices
  | n + 1, j, indices =>
    deleteAll_sortInner i n (j + 1)
      (if indices.getD i 0 < indices.getD j 0 then
        (indices.set i (indices.getD j 0)).set j (indices.getD i 0)
      else indices)

/-- The outer loop of the sort of `arr_deleteAll`, `n` iterations left at
loop variable `i`, on an array of `count` entries. -/
def deleteAll_sortOuter (count : Nat) : Nat → Nat → List Int → List Int
  | 0, _, indices => indices
  | n + 1, i, indices =>
    deleteAll_sortOuter count n (i + 1) (deleteAll_sortInner i (count - (i + 1)) (i + 1) indices)

/-- The last loop of `arr_deleteAll`: `arr_delete` at each entry in turn, the
status of each call ignored. -/
def deleteAll_apply : List Int → ArrayList → ArrayList
  | [], l => l
  | index :: rest, l => deleteAll_apply rest (arr_delete l index).2

/-- The function `arr_deleteAll`. -/
def arr_deleteAll (l : ArrayList) (count : Int) (args : List Int) : Int × ArrayList :=
  let indices := deleteAll_read args count.toNat 0
  let sorted := deleteAll_sortOuter count.toNat (count.toNat - 1) 0 indices
  (0, deleteAll_apply sorted l)

/-- The element slot at `size_t` index `i`: the bytes a pointer
`(char *)data + i * dataTypeSize` refers to. -/
def current (l : ArrayList) (i : Nat) : List Byte :=
  load l.data (wrap (i * l.dataTypeSize)) l.dataTypeSize

/-- The loop of `arr_deleteFirst`, `n` iterations left at loop variable `i`. -/
def deleteFirst_loop (l : ArrayList) (data : List Byte) (cmpField : Comparator) :
    Nat → Nat → Int × ArrayList
  | 0, _ => (1, l)
  | n + 1, i =>
    if genericComparator (current l i) data l.dataTypeSize cmpField = 0 then
      (0, (arr_delete l (toInt i)).2)
    else deleteFirst_loop l data cmpField n (i + 1)

/-- The function `arr_deleteFirst`. -/
def arr_deleteFirst (l : ArrayList) (data : List Byte) (cmpField : Comparator) : Int × ArrayList :=
  deleteFirst_loop l data cmpField l.size 0

/-- The function `arr_get`: `none` is `NULL`, a pointer to an element is the
bytes of that element. -/
def arr_get (l : ArrayList) (index : Int) : Option (List Byte) :=
  if index < 0 ∨ index ≥ toInt l.size then none
  else some (load l.data (wrap (toSizeT index * l.dataTypeSize)) l.dataTypeSize)

/-- The loop of `arr_getIndexOf`, `n` iterations left at loop variable `i`. -/
def getIndexOf_loop (l : ArrayList) (data : List Byte) (cmpField : Comparator) : Nat → Nat → Int
  | 0, _ => -1
  | n + 1, i =>
    if genericComparator (current l i) data l.dataTypeSize cmpField = 0 then toInt i
    else getIndexOf_loop l data cmpField n (i + 1)

/-- The function `arr_getIndexOf`. -/
def arr_getIndexOf (l : ArrayList) (data : List Byte) (cmpField : Comparator) : Int :=
  getIndexOf_loop l data cmpField l.size 0

/-- The function `arr_set`. -/
def arr_set (l : ArrayList) (index : Int) (data : List Byte) : Int × ArrayList :=
  if index < 0 ∨ toSizeT index ≥ l.size then (-1, l)
  else
    let target := wrap (toSizeT index * l.dataTypeSize)
    (0, { l with data := memcpy l.data target data l.dataTypeSize })

/-- The function `arr_size`. -/
def arr_size (l : ArrayList) : Nat := l.size

/-- The function `arr_capacity`. -/
def arr_capacity (l : ArrayList) : Nat := l.capacity

/-- The function `arr_clear`; `ok` is the outcome of its `malloc`. -/
def arr_clear (l : ArrayList) (ok : Bool) : Int × ArrayList :=
  let l1 : ArrayList :=
    { l with size := 0, capacity := INIT_CAPACITY,
             data := malloc (wrap (INIT_CAPACITY * l.dataTypeSize)) ok }
  if ok then (0, l1) else (1, l1)

/-! ## Specification vocabulary -/

/-- The logical content of the container: the element slots `0 .. size-1`. -/
def toList (l : ArrayList) : List (List Byte) := (List.range l.size).map (current l)

/-- The block of the container is laid out as the struct says: the fields
are `size_t` values and `data` has `capacity * dataTypeSize` bytes, a byte
count that is itself a `size_t` value. -/
def WellFormed (l : ArrayList) : Prop :=
  l.capacity < SIZE_MOD ∧ l.dataTypeSize < SIZE_MOD ∧
    l.data.length = l.capacity * l.dataTypeSize ∧ l.capacity * l.dataTypeSize < SIZE_MOD

instance (l : ArrayList) : Decidable (WellFormed l) := by unfold WellFormed; infer_instance

/-- A slot count `n` and the byte count of `n` slots of width `d` are
`size_t` values. -/
def Fits (n d : Nat) : Prop := n < SIZE_MOD ∧ n * d < SIZE_MOD

instance (n d : Nat) : Decidable (Fits n d) := by unfold Fits; infer_instance

/-- Growth of `l` by doubling can succeed as such: the doubled slot count and
the byte count of the doubled block are `size_t` values. -/
def Doubles (l : ArrayList) : Prop :=
  l.capacity * 2 < SIZE_MOD ∧ l.capacity * 2 * l.dataTypeSize < SIZE_MOD

instance (l : ArrayList) : Decidable (Doubles l) := by unfold Doubles; infer_instance

/-- Growth of `l` towards `n` slots can succeed as such: every doubling of the
capacity that is made while the capacity is below `n` gives a slot count and
a byte count that are `size_t` values. -/
def GrowthFits (l : ArrayList) (n : Nat) : Prop :=
  ∀ j : Nat, l.capacity * 2 ^ j < n → Fits (l.capacity * 2 ^ (j + 1)) l.dataTypeSize

/-- Equality of the element in slot `i` and the target as the comparator
abstraction defines it: the caller's predicate reports equality (returns 0),
or, without a predicate, the bytes of the element are the bytes of the
target. -/
def EqualAt (l : ArrayList) (data : List Byte) (cmpField : Comparator) (i : Nat) : Prop :=
  match cmpField with
  | some f => f (current l i) data = 0
  | none => current l i = data

/-- The elements of `xs` whose index is not in `batch`, in their order. -/
def survivors (xs : List (List Byte)) (batch : List Int) : List (List Byte) :=
  (xs.enum.filter (fun p => decide (¬ ((p.1 : Nat) : Int) ∈ batch))).map Prod.snd

/-- Successive `arr_insert` calls, one for each element of the list, the
`realloc` of every growth attempt returning a block. -/
def insertEach : ArrayList → List (List Byte) → ArrayList
  | l, [] => l
  | l, x :: xs => insertEach (arr_insert l x true).2 xs

/-- The lists that `arr_init` followed by finitely many calls of the public
operations can produce, whatever the arguments and whatever the outcomes of
the allocations. -/
inductive Reachable : ArrayList → Prop
  | init (dataTypeSize : Nat) (ok : Bool) (h : dataTypeSize < SIZE_MOD) :
      Reachable (arr_init dataTypeSize ok)
  | insert (l : ArrayList) (data : List Byte) (ok : Bool) (h : Reachable l) :
      Reachable (arr_insert l data ok).2
  | insertAll (l : ArrayList) (count : Int) (args : List (List Byte)) (oks : Nat → Bool)
      (fuel : Nat) (r : Int × ArrayList) (h : Reachable l) (hc : IsInt count)
      (hr : arr_insertAll l count args oks fuel = some r) : Reachable r.2
  | delete (l : ArrayList) (index : Int) (h : Reachable l) (hi : IsInt index) :
      Reachable (arr_delete l index).2
  | deleteAll (l : ArrayList) (count : Int) (args : List Int) (h : Reachable l)
      (hc : IsInt count) (ha : ∀ a ∈ args, IsInt a) : Reachable (arr_deleteAll l count args).2
  | deleteFirst (l : ArrayList) (data : List Byte) (cmpField : Comparator) (h : Reachable l) :
      Reachable (arr_deleteFirst l data cmpField).2
  | set (l : ArrayList) (index : Int) (data : List Byte) (h : Reachable l) (hi : IsInt index) :
      Reachable (arr_set l index data).2
  | resize (l : ArrayList) (ok : Bool) (h : Reachable l) : Reachable (arr_resize l ok)
  | clear (l : ArrayList) (ok : Bool) (h : Reachable l) : Reachable (arr_clear l ok).2

/-! ## The list after one successful step -/

/-- The list after a successful `arr_delete` at slot `n`. -/
def deleted (l : ArrayList) (n : Nat) : ArrayList :=
  { l with
    data := store l.data (n * l.dataTypeSize)
      (load l.data (n * l.dataTypeSize + l.dataTypeSize) ((l.size - n - 1) * l.dataTypeSize))
    size := l.size - 1 }

/-- The list after a successful `arr_resize`. -/
def grown (l : ArrayList) : ArrayList :=
  { l with
    data := l.data ++ List.replicate (l.capacity * l.dataTypeSize) 0
    capacity := l.capacity * 2 }

/-- The list after the copy and the increment of `arr_insert`, no growth
involved. -/
def inserted (l : ArrayList) (v : List Byte) : ArrayList :=
  { l with
    data := store l.data (l.size * l.dataTypeSize) (v.take l.dataTypeSize)
    size := l.size + 1 }

/-! ## Example lists -/

/-- The list `[10, 20, 30]` of `test_int_operations`: three 4-byte integers in
a block of the initial capacity. -/
def list123 : ArrayList :=
  { data := [10, 0, 0, 0, 20, 0, 0, 0, 30, 0, 0, 0] ++ List.replicate 28 0
    size := 3
    capacity := 10
    dataTypeSize := 4 }

/-- A full list: ten one-byte elements in a block of the initial capacity. -/
def listFull : ArrayList :=
  { data := [1, 2, 3, 4, 5, 6, 7, 8, 9, 10]
    size := 10
    capacity := 10
    dataTypeSize := 1 }

/-- A list of capacity 0: no slot, no byte. -/
def listNoSlot : ArrayList :=
  { data := []
    size := 0
    capacity := 0
    dataTypeSize := 4 }

/-- A list of `INT_MAX` one-byte elements, in the block of `10 * 2^28` bytes
that the doubling from `INIT_CAPACITY` gives it. -/
def listIntMax : ArrayList :=
  { data := List.replicate 2684354560 0
    size := 2147483647
    capacity := 2684354560
    dataTypeSize := 1 }

/-- A list of `2^31` one-byte elements, in the block of `10 * 2^28` bytes that
the doubling from `INIT_CAPACITY` gives it. -/
def list2G : ArrayList :=
  { data := List.replicate 2684354560 0
    size := 2147483648
    capacity := 2684354560
    dataTypeSize := 1 }

/-- A list of `n + 1` one-byte elements, the last one 1 and the others 0, in
a block of `cap` bytes. -/
def listOneAt (n cap : Nat) : ArrayList :=
  { data := List.replicate n 0 ++ 1 :: List.replicate (cap - (n + 1)) 0
    size := n + 1
    capacity := cap
    dataTypeSize := 1 }

/-! ## The string comparator of the test program -/

/-- The entries of a batch of indices that are in `[0, size)` of the list, in
their order. -/
def validEntries (l : ArrayList) (batch : List Int) : List Int :=
  batch.filter (fun b => decide (0 ≤ b ∧ b < (l.size : Int)))

/-! ## Memory lemmas -/

theorem length_store (bs : List Byte) : ∀ (mem : List Byte) (off : Nat),
    (store mem off bs).length = mem.length := by
  induction bs with
  | nil => intro mem off; rfl
  | cons b bs ih => intro mem off; simp [store, ih]

theorem getElem?_store (bs : List Byte) : ∀ (mem : List Byte) (off k : Nat),
    (store mem off bs)[k]? =
      if off ≤ k ∧ k < off + bs.length ∧ k < mem.length then bs[k - off]? else mem[k]? := by
  induction bs with
  | nil =>
    intro mem off k
    have : ¬ (off ≤ k ∧ k < off + ([] : List Byte).length ∧ k < mem.length) := by
      simp only [List.length_nil]; omega
    rw [if_neg this]; rfl
  | cons b bs ih =>
    intro mem off k
    simp only [store, ih, List.length_set, List.length_cons, List.getElem?_set]
    by_cases hk : off = k
    · subst hk
      by_cases hl : off < mem.length
      · have h1 : ¬ (off + 1 ≤ off ∧ off < off + 1 + bs.length ∧ off < mem.length) := by omega
        have h2 : off ≤ off ∧ off < off + (bs.length + 1) ∧ off < mem.length := by omega
        rw [if_neg h1, if_pos h2]; simp [hl]
      · have h1 : ¬ (off + 1 ≤ off ∧ off < off + 1 + bs.length ∧ off < mem.length) := by omega
        have h2 : ¬ (off ≤ off ∧ off < off + (bs.length + 1) ∧ off < mem.length) := by omega
        rw [if_neg h1, if_neg h2]; simp [hl]
        omega
    · by_cases hc : off + 1 ≤ k ∧ k < off + 1 + bs.length ∧ k < mem.length
      · have h2 : off ≤ k ∧ k < off + (bs.length + 1) ∧ k < mem.length := by omega
        rw [if_pos hc, if_pos h2]
        obtain ⟨d, rfl⟩ : ∃ d, k = off + 1 + d := ⟨k - (off + 1), by omega⟩
        have e1 : off + 1 + d - (off + 1) = d := by omega
        have e2 : off + 1 + d - off = d + 1 := by omega
        rw [e1, e2]; simp
      · have h2 : ¬ (off ≤ k ∧ k < off + (bs.length + 1) ∧ k < mem.length) := by omega
        rw [if_neg hc, if_neg h2, if_neg hk]

theorem getElem?_load (mem : List Byte) (off n k : Nat) :
    (load mem off n)[k]? = if k < n then mem[off + k]? else none := by
  simp [load, List.getElem?_take, List.getElem?_drop]

theorem length_load (mem : List Byte) (off n : Nat) (h : off + n ≤ mem.length) :
    (load mem off n).length = n := by
  simp [load]; omega

/-! ## Arithmetic lemmas -/

theorem wrap_of_lt {n : Nat} (h : n < SIZE_MOD) : wrap n = n := Nat.mod_eq_of_lt h

theorem wsub_of_le {a b : Nat} (hb : b ≤ a) (ha : a < SIZE_MOD) : wsub a b = a - b := by
  unfold wsub
  rw [Nat.mod_eq_of_lt (Nat.lt_of_le_of_lt hb ha)]
  have e : a + SIZE_MOD - b = (a - b) + SIZE_MOD := by omega
  rw [e, Nat.add_mod_right]
  exact Nat.mod_eq_of_lt (by omega)

theorem toSizeT_of_nonneg {x : Int} (h0 : 0 ≤ x) (h1 : x < (SIZE_MOD : Int)) :
    toSizeT x = x.toNat := by
  unfold toSizeT
  rw [Int.emod_eq_of_lt h0 h1]

theorem toSizeT_natCast {n : Nat} (h : n < SIZE_MOD) : toSizeT (n : Int) = n := by
  rw [toSizeT_of_nonneg (Int.ofNat_nonneg n) (by exact_mod_cast h)]
  simp

theorem toInt_of_le {n : Nat} (h : (n : Int) ≤ INT_MAX) : toInt n = (n : Int) := by
  unfold INT_MAX at h
  unfold toInt INT_MOD
  have h1 : n % 4294967296 = n := Nat.mod_eq_of_lt (by omega)
  rw [h1, if_pos (by omega)]

theorem slot_le {j i : Nat} (d : Nat) (h : j < i) : j * d + d ≤ i * d := by
  have := Nat.mul_le_mul_right d (Nat.succ_le_of_lt h)
  rwa [Nat.succ_mul] at this

theorem slot_lt_mod {l : ArrayList} (hw : WellFormed l) {j : Nat} (h : j < l.capacity) :
    j * l.dataTypeSize + l.dataTypeSize ≤ l.capacity * l.dataTypeSize ∧
      l.capacity * l.dataTypeSize < SIZE_MOD ∧ l.data.length = l.capacity * l.dataTypeSize :=
  ⟨slot_le _ h, hw.2.2.2, hw.2.2.1⟩

/-! ## Slots -/

theorem getElem?_current (l : ArrayList) (j t : Nat) (h : j * l.dataTypeSize < SIZE_MOD) :
    (current l j)[t]? = if t < l.dataTypeSize then l.data[j * l.dataTypeSize + t]? else none := by
  unfold current
  rw [wrap_of_lt h, getElem?_load]

theorem getElem?_toList (l : ArrayList) (j : Nat) :
    (toList l)[j]? = if j < l.size then some (current l j) else none := by
  unfold toList
  rw [List.getElem?_map]
  by_cases h : j < l.size
  · rw [List.getElem?_range h, if_pos h]; rfl
  · rw [List.getElem?_eq_none (by simpa using h), if_neg h]; rfl

theorem length_toList (l : ArrayList) : (toList l).length = l.size := by
  simp [toList]

/-! ## `arr_set` and `arr_get` -/

theorem arr_set_eq (l : ArrayList) (i : Int) (v : List Byte) (hw : WellFormed l)
    (hs : l.size ≤ l.capacity) (h0 : 0 ≤ i) (h1 : i < (l.size : Int)) :
    arr_set l i v =
      (0, { l with data := store l.data (i.toNat * l.dataTypeSize) (v.take l.dataTypeSize) }) := by
  obtain ⟨n, rfl⟩ := Int.eq_ofNat_of_zero_le h0
  have hn : n < l.size := by exact_mod_cast h1
  obtain ⟨hle, hlt, -⟩ := slot_lt_mod hw (Nat.lt_of_lt_of_le hn hs)
  have hc := hw.1
  unfold arr_set
  rw [toSizeT_natCast (by omega), if_neg (by omega)]
  simp only [Int.toNat_ofNat, memcpy]
  rw [wrap_of_lt (by omega)]

theorem current_store_same (l : ArrayList) (n : Nat) (v : List Byte) (hw : WellFormed l)
    (hn : n < l.capacity) (hv : v.length = l.dataTypeSize) :
    current { l with data := store l.data (n * l.dataTypeSize) v } n = v := by
  obtain ⟨hle, hlt, hlen⟩ := slot_lt_mod hw hn
  apply List.ext_getElem?
  intro t
  rw [getElem?_current _ _ _ (by show n * l.dataTypeSize < SIZE_MOD; omega)]
  show (if t < l.dataTypeSize then (store l.data (n * l.dataTypeSize) v)[n * l.dataTypeSize + t]? else none) = v[t]?
  by_cases ht : t < l.dataTypeSize
  · rw [if_pos ht, getElem?_store, if_pos (by omega)]
    congr 1; omega
  · rw [if_neg ht, List.getElem?_eq_none (by omega)]

theorem current_store_other (l : ArrayList) (n j : Nat) (v : List Byte) (hw : WellFormed l)
    (hn : n < l.capacity) (hj : j < l.capacity) (hne : j ≠ n) (hv : v.length ≤ l.dataTypeSize) :
    current { l with data := store l.data (n * l.dataTypeSize) v } j = current l j := by
  obtain ⟨hle, hlt, hlen⟩ := slot_lt_mod hw hn
  obtain ⟨hle2, -, -⟩ := slot_lt_mod hw hj
  apply List.ext_getElem?
  intro t
  rw [getElem?_current _ _ _ (by show j * l.dataTypeSize < SIZE_MOD; omega),
    getElem?_current _ _ _ (by omega)]
  show (if t < l.dataTypeSize then (store l.data (n * l.dataTypeSize) v)[j * l.dataTypeSize + t]? else none) = _
  by_cases ht : t < l.dataTypeSize
  · rw [if_pos ht, if_pos ht, getElem?_store, if_neg]
    rcases Nat.lt_or_gt_of_ne hne with h | h
    · have := slot_le l.dataTypeSize h; omega
    · have := slot_le l.dataTypeSize h; omega
  · rw [if_neg ht, if_neg ht]

theorem arr_get_eq (l : ArrayList) (i : Int) (h0 : 0 ≤ i) (h1 : i < (l.size : Int))
    (hm : (l.size : Int) ≤ INT_MAX) : arr_get l i = some (current l i.toNat) := by
  obtain ⟨n, rfl⟩ := Int.eq_ofNat_of_zero_le h0
  have hn : n < l.size := by exact_mod_cast h1
  have hm2 : l.size < 2147483648 := by unfold INT_MAX at hm; omega
  unfold arr_get
  rw [toInt_of_le hm, if_neg (by omega), toSizeT_natCast (by unfold SIZE_MOD; omega)]
  rfl

theorem arr_get_none (l : ArrayList) (i : Int) (hi : IsInt i)
    (h : i < 0 ∨ (l.size : Int) ≤ i) : arr_get l i = none := by
  unfold arr_get
  rcases h with h | h
  · rw [if_pos (Or.inl h)]
  · have hm : (l.size : Int) ≤ INT_MAX := le_trans h hi.2
    rw [toInt_of_le hm, if_pos (Or.inr h)]

theorem arr_delete_invalid (l : ArrayList) (i : Int) (hi : IsInt i)
    (h : i < 0 ∨ (l.size : Int) ≤ i) : arr_delete l i = (-1, l) := by
  unfold arr_delete
  rcases h with h | h
  · rw [if_pos (Or.inl h)]
  · have h0 : 0 ≤ i := le_trans (Int.ofNat_nonneg _) h
    have h2 : i < (SIZE_MOD : Int) := by
      have := hi.2; unfold INT_MAX at this; unfold SIZE_MOD; omega
    rw [toSizeT_of_nonneg h0 h2, if_pos]
    right; show l.size ≤ i.toNat; omega

theorem arr_set_invalid (l : ArrayList) (i : Int) (v : List Byte) (hi : IsInt i)
    (h : i < 0 ∨ (l.size : Int) ≤ i) : arr_set l i v = (-1, l) := by
  unfold arr_set
  rcases h with h | h
  · rw [if_pos (Or.inl h)]
  · have h0 : 0 ≤ i := le_trans (Int.ofNat_nonneg _) h
    have h2 : i < (SIZE_MOD : Int) := by
      have := hi.2; unfold INT_MAX at this; unfold SIZE_MOD; omega
    rw [toSizeT_of_nonneg h0 h2, if_pos]
    right; show l.size ≤ i.toNat; omega

theorem list2G_wellFormed : WellFormed list2G ∧ list2G.size ≤ list2G.capacity := by
  refine ⟨⟨?_, ?_, ?_, ?_⟩, ?_⟩
  · show 2684354560 < SIZE_MOD; decide
  · show 1 < SIZE_MOD; decide
  · show (List.replicate 2684354560 0).length = 2684354560 * 1
    rw [List.length_replicate]
  · show 2684354560 * 1 < SIZE_MOD; decide
  · show 2147483648 ≤ 2684354560; decide

/-- Round trip of `arr_set` and `arr_get` on the lists whose size is an
`int` value. -/
theorem arr_get_arr_set (l : ArrayList) (i : Int) (v : List Byte) (hw : WellFormed l)
    (hs : l.size ≤ l.capacity) (h0 : 0 ≤ i) (h1 : i < (l.size : Int))
    (hm : (l.size : Int) ≤ INT_MAX) (hv : v.length = l.dataTypeSize) :
    (arr_set l i v).1 = 0 ∧ arr_get (arr_set l i v).2 i = some v := by
  rw [arr_set_eq l i v hw hs h0 h1]
  refine ⟨rfl, ?_⟩
  show arr_get { l with data := store l.data (i.toNat * l.dataTypeSize) (v.take l.dataTypeSize) } i
    = some v
  rw [arr_get_eq { l with data := store l.data (i.toNat * l.dataTypeSize) (v.take l.dataTypeSize) }
    i h0 h1 hm]
  have hn : i.toNat < l.capacity := by omega
  rw [List.take_of_length_le (by omega)]
  exact congrArg some (current_store_same l i.toNat v hw hn hv)

/-! ## `arr_delete` -/

theorem arr_delete_eq (l : ArrayList) (i : Int) (hw : WellFormed l)
    (hs : l.size ≤ l.capacity) (h0 : 0 ≤ i) (h1 : i < (l.size : Int)) :
    arr_delete l i = (0, deleted l i.toNat) := by
  obtain ⟨n, rfl⟩ := Int.eq_ofNat_of_zero_le h0
  have hn : n < l.size := by exact_mod_cast h1
  obtain ⟨hle, hlt, -⟩ := slot_lt_mod hw (Nat.lt_of_lt_of_le hn hs)
  have hc := hw.1
  have hm : (l.size - n - 1) * l.dataTypeSize ≤ l.capacity * l.dataTypeSize :=
    Nat.mul_le_mul_right _ (by omega)
  unfold arr_delete deleted
  rw [toSizeT_natCast (by omega), if_neg (by omega)]
  simp only [Int.toNat_ofNat, memmove]
  rw [wrap_of_lt (by omega), @wsub_of_le l.size n (by omega) (by omega),
    @wsub_of_le (l.size - n) 1 (by omega) (by omega), @wsub_of_le l.size 1 (by omega) (by omega),
    wrap_of_lt (by omega)]

theorem getElem?_deleted (l : ArrayList) (n k : Nat) (hw : WellFormed l)
    (hs : l.size ≤ l.capacity) (hn : n < l.size) :
    (deleted l n).data[k]? =
      if n * l.dataTypeSize ≤ k ∧ k < (l.size - 1) * l.dataTypeSize then
        l.data[k + l.dataTypeSize]? else l.data[k]? := by
  obtain ⟨m, hm⟩ : ∃ m, l.size = n + 1 + m := ⟨l.size - (n + 1), by omega⟩
  have e1 : l.size - n - 1 = m := by omega
  have e2 : l.size - 1 = n + m := by omega
  have e3 : (n + m) * l.dataTypeSize = n * l.dataTypeSize + m * l.dataTypeSize := Nat.add_mul _ _ _
  have e4 : l.size * l.dataTypeSize = n * l.dataTypeSize + l.dataTypeSize + m * l.dataTypeSize := by
    rw [hm, Nat.add_mul, Nat.add_mul, Nat.one_mul]
  have h5 : l.size * l.dataTypeSize ≤ l.capacity * l.dataTypeSize := Nat.mul_le_mul_right _ hs
  have hlen := hw.2.2.1
  show (store l.data (n * l.dataTypeSize)
      (load l.data (n * l.dataTypeSize + l.dataTypeSize) ((l.size - n - 1) * l.dataTypeSize)))[k]? = _
  rw [getElem?_store, length_load _ _ _ (by rw [e1]; omega), e1, e2, e3]
  by_cases hk : n * l.dataTypeSize ≤ k ∧ k < n * l.dataTypeSize + m * l.dataTypeSize
  · rw [if_pos (by omega), if_pos hk, getElem?_load, if_pos (by omega)]
    congr 1; omega
  · rw [if_neg (by omega), if_neg hk]

theorem current_deleted_lt (l : ArrayList) (n j : Nat) (hw : WellFormed l)
    (hs : l.size ≤ l.capacity) (hn : n < l.size) (hj : j < n) :
    current (deleted l n) j = current l j := by
  obtain ⟨hle, hlt, -⟩ := slot_lt_mod hw (Nat.lt_of_lt_of_le hn hs)
  have hjn := slot_le l.dataTypeSize hj
  apply List.ext_getElem?
  intro t
  rw [getElem?_current _ _ _ (by show j * l.dataTypeSize < SIZE_MOD; omega),
    getElem?_current _ _ _ (by omega)]
  show (if t < l.dataTypeSize then (deleted l n).data[j * l.dataTypeSize + t]? else none) = _
  by_cases ht : t < l.dataTypeSize
  · rw [if_pos ht, if_pos ht, getElem?_deleted l n _ hw hs hn, if_neg (by omega)]
  · rw [if_neg ht, if_neg ht]

theorem current_deleted_ge (l : ArrayList) (n j : Nat) (hw : WellFormed l)
    (hs : l.size ≤ l.capacity) (hn : n < l.size) (hj : n ≤ j) (hj2 : j + 1 < l.size) :
    current (deleted l n) j = current l (j + 1) := by
  obtain ⟨hle, hlt, -⟩ := slot_lt_mod hw (show j + 1 < l.capacity by omega)
  have e1 : (j + 1) * l.dataTypeSize = j * l.dataTypeSize + l.dataTypeSize := by
    rw [Nat.add_mul, Nat.one_mul]
  have h2 : n * l.dataTypeSize ≤ j * l.dataTypeSize := Nat.mul_le_mul_right _ hj
  have h3 := slot_le l.dataTypeSize (show j < l.size - 1 by omega)
  apply List.ext_getElem?
  intro t
  rw [getElem?_current _ _ _ (by show j * l.dataTypeSize < SIZE_MOD; omega),
    getElem?_current _ _ _ (by omega)]
  show (if t < l.dataTypeSize then (deleted l n).data[j * l.dataTypeSize + t]? else none) = _
  by_cases ht : t < l.dataTypeSize
  · rw [if_pos ht, if_pos ht, getElem?_deleted l n _ hw hs hn, if_pos (by omega), e1]
    congr 1; omega
  · rw [if_neg ht, if_neg ht]

theorem toList_deleted (l : ArrayList) (n : Nat) (hw : WellFormed l)
    (hs : l.size ≤ l.capacity) (hn : n < l.size) :
    toList (deleted l n) = (toList l).eraseIdx n := by
  apply List.ext_getElem?
  intro j
  rw [getElem?_toList, List.getElem?_eraseIdx, getElem?_toList, getElem?_toList]
  show (if j < l.size - 1 then some (current (deleted l n) j) else none) = _
  by_cases hj : j < n
  · rw [if_pos (by omega), if_pos hj, if_pos (by omega), current_deleted_lt l n j hw hs hn hj]
  · rw [if_neg hj]
    by_cases hj2 : j + 1 < l.size
    · rw [if_pos (by omega), if_pos hj2, current_deleted_ge l n j hw hs hn (by omega) hj2]
    · rw [if_neg (by omega), if_neg hj2]

theorem wellFormed_deleted (l : ArrayList) (n : Nat) (hw : WellFormed l) :
    WellFormed (deleted l n) :=
  ⟨hw.1, hw.2.1, (length_store _ _ _).trans hw.2.2.1, hw.2.2.2⟩

/-! ## `arr_resize` and `arr_insert` -/

theorem mul_two_mul (c d : Nat) : c * 2 * d = c * d + c * d := by
  rw [Nat.mul_comm c 2, Nat.mul_assoc, Nat.two_mul]

theorem arr_resize_eq (l : ArrayList) (hw : WellFormed l) (hd : Doubles l) :
    arr_resize l true = grown l := by
  obtain ⟨hc, hdt, hlen, hb⟩ := hw
  obtain ⟨h1, h2⟩ := hd
  have e := mul_two_mul l.capacity l.dataTypeSize
  unfold arr_resize grown realloc
  simp only [if_true]
  rw [wrap_of_lt h1, wrap_of_lt h2, List.take_of_length_le (by omega)]
  congr 3
  omega

theorem arr_resize_false (l : ArrayList) : arr_resize l false = l := rfl

theorem wellFormed_grown (l : ArrayList) (hw : WellFormed l) (hd : Doubles l) :
    WellFormed (grown l) := by
  obtain ⟨hc, hdt, hlen, hb⟩ := hw
  obtain ⟨h1, h2⟩ := hd
  have e := mul_two_mul l.capacity l.dataTypeSize
  refine ⟨h1, hdt, ?_, h2⟩
  show (l.data ++ List.replicate (l.capacity * l.dataTypeSize) 0).length
    = l.capacity * 2 * l.dataTypeSize
  rw [List.length_append, List.length_replicate, hlen, e]

theorem current_grown (l : ArrayList) (j : Nat) (hw : WellFormed l) (hj : j < l.capacity) :
    current (grown l) j = current l j := by
  obtain ⟨hle, hlt, hlen⟩ := slot_lt_mod hw hj
  apply List.ext_getElem?
  intro t
  rw [getElem?_current _ _ _ (by show j * l.dataTypeSize < SIZE_MOD; omega),
    getElem?_current _ _ _ (by omega)]
  show (if t < l.dataTypeSize then
    (l.data ++ List.replicate (l.capacity * l.dataTypeSize) 0)[j * l.dataTypeSize + t]? else none) = _
  by_cases ht : t < l.dataTypeSize
  · rw [if_pos ht, if_pos ht, List.getElem?_append, if_pos (by omega)]
  · rw [if_neg ht, if_neg ht]

theorem toList_grown (l : ArrayList) (hw : WellFormed l) (hs : l.size ≤ l.capacity) :
    toList (grown l) = toList l := by
  apply List.ext_getElem?
  intro j
  rw [getElem?_toList, getElem?_toList]
  show (if j < l.size then some (current (grown l) j) else none) = _
  by_cases hj : j < l.size
  · rw [if_pos hj, if_pos hj, current_grown l j hw (by omega)]
  · rw [if_neg hj, if_neg hj]

theorem wellFormed_inserted (l : ArrayList) (v : List Byte) (hw : WellFormed l) :
    WellFormed (inserted l v) :=
  ⟨hw.1, hw.2.1, (length_store _ _ _).trans hw.2.2.1, hw.2.2.2⟩

theorem current_inserted_same (l : ArrayList) (v : List Byte) (hw : WellFormed l)
    (hs : l.size < l.capacity) (hv : v.length = l.dataTypeSize) :
    current (inserted l v) l.size = v := by
  have h := current_store_same l l.size v hw hs hv
  unfold inserted
  rw [List.take_of_length_le (by omega)]
  exact h

theorem current_inserted_other (l : ArrayList) (v : List Byte) (j : Nat) (hw : WellFormed l)
    (hs : l.size < l.capacity) (hj : j < l.size) :
    current (inserted l v) j = current l j :=
  current_store_other l l.size j _ hw hs (by omega) (by omega) (by rw [List.length_take]; omega)

theorem toList_inserted (l : ArrayList) (v : List Byte) (hw : WellFormed l)
    (hs : l.size < l.capacity) (hv : v.length = l.dataTypeSize) :
    toList (inserted l v) = toList l ++ [v] := by
  apply List.ext_getElem?
  intro j
  rw [getElem?_toList, List.getElem?_append, length_toList, getElem?_toList]
  show (if j < l.size + 1 then some (current (inserted l v) j) else none) = _
  by_cases hj : j < l.size
  · rw [if_pos (by omega), if_pos hj, if_pos hj, current_inserted_other l v j hw hs hj]
  · rw [if_neg hj]
    by_cases hj2 : j = l.size
    · subst hj2
      rw [if_pos (by omega), current_inserted_same l v hw hs hv]
      simp
    · rw [if_neg (by omega), List.getElem?_eq_none (by simp; omega)]

theorem arr_insert_room (l : ArrayList) (v : List Byte) (ok : Bool) (hw : WellFormed l)
    (hs : l.size < l.capacity) : arr_insert l v ok = (0, inserted l v) := by
  obtain ⟨hle, hlt, -⟩ := slot_lt_mod hw hs
  have hc := hw.1
  unfold arr_insert inserted memcpy
  simp only [if_neg (Nat.ne_of_lt hs)]
  rw [wrap_of_lt (by omega), wrap_of_lt (by omega)]

theorem arr_insert_full (l : ArrayList) (v : List Byte) (hw : WellFormed l)
    (hs : l.size = l.capacity) (hd : Doubles l) (hpos : 0 < l.capacity) :
    arr_insert l v true = (0, inserted (grown l) v) := by
  have hw2 := wellFormed_grown l hw hd
  have hs2 : (grown l).size < (grown l).capacity := by
    show l.size < l.capacity * 2; omega
  have h := arr_insert_room (grown l) v true hw2 hs2
  unfold arr_insert at h ⊢
  simp only [if_pos hs, arr_resize_eq l hw hd]
  simpa only [if_neg (Nat.ne_of_lt hs2)] using h

theorem Fits.mono {n m d : Nat} (h : Fits m d) (hnm : n ≤ m) : Fits n d :=
  ⟨Nat.lt_of_le_of_lt hnm h.1, Nat.lt_of_le_of_lt (Nat.mul_le_mul_right d hnm) h.2⟩

theorem GrowthFits.doubles {l : ArrayList} {n : Nat} (h : GrowthFits l n) (hn : l.capacity < n) :
    Doubles l := by
  have := h 0 (by rw [Nat.pow_zero, Nat.mul_one]; exact hn)
  rw [Nat.zero_add, Nat.pow_one] at this
  exact this

theorem GrowthFits.of_capacity {l l1 : ArrayList} {n : Nat} (h : GrowthFits l n)
    (hc : l1.capacity = l.capacity) (hd : l1.dataTypeSize = l.dataTypeSize) : GrowthFits l1 n := by
  intro j hj
  rw [hc, hd]
  rw [hc] at hj
  exact h j hj

theorem GrowthFits.of_doubled {l l1 : ArrayList} {n : Nat} (h : GrowthFits l n)
    (hc : l1.capacity = l.capacity * 2) (hd : l1.dataTypeSize = l.dataTypeSize) :
    GrowthFits l1 n := by
  intro j hj
  have e : ∀ i, l.capacity * 2 * 2 ^ i = l.capacity * 2 ^ (i + 1) := by
    intro i; rw [Nat.mul_assoc, ← Nat.pow_succ']
  rw [hc, hd, e]
  rw [hc, e] at hj
  exact h (j + 1) hj

theorem GrowthFits.of_fits {l : ArrayList} {n : Nat} (h : Fits (2 * n) l.dataTypeSize) :
    GrowthFits l n := by
  intro j hj
  refine Fits.mono h ?_
  rw [Nat.pow_succ, ← Nat.mul_assoc]
  omega

theorem GrowthFits.lt_mod {l : ArrayList} {n : Nat} (h : GrowthFits l n) (hpos : 0 < l.capacity)
    (hc : l.capacity < SIZE_MOD) : n < SIZE_MOD := by
  by_contra hn
  have hall : ∀ j : Nat, l.capacity * 2 ^ j < SIZE_MOD := by
    intro j
    induction j with
    | zero => rw [Nat.pow_zero, Nat.mul_one]; exact hc
    | succ j ih => exact (h j (by omega)).1
  have h64 := hall 64
  have h1 : 1 * 2 ^ 64 ≤ l.capacity * 2 ^ 64 := Nat.mul_le_mul_right _ hpos
  have h2 : (2 : Nat) ^ 64 = 18446744073709551616 := by norm_num
  unfold SIZE_MOD at h64
  omega

/-- What one `arr_insert` does to a list with room, or to a full list whose
growth succeeds. -/
theorem arr_insert_spec (l : ArrayList) (v : List Byte) (ok : Bool) (hw : WellFormed l)
    (hpos : 0 < l.capacity) (hs : l.size ≤ l.capacity)
    (hg : l.size = l.capacity → ok = true ∧ Doubles l) :
    (arr_insert l v ok).1 = 0 ∧ (arr_insert l v ok).2.size = l.size + 1 ∧
      (arr_insert l v ok).2.dataTypeSize = l.dataTypeSize ∧
      (arr_insert l v ok).2.capacity = (if l.size = l.capacity then l.capacity * 2 else l.capacity) ∧
      WellFormed (arr_insert l v ok).2 ∧
      (arr_insert l v ok).2.size ≤ (arr_insert l v ok).2.capacity ∧
      (∀ j : Nat, j < l.size → current (arr_insert l v ok).2 j = current l j) ∧
      (v.length = l.dataTypeSize → current (arr_insert l v ok).2 l.size = v) ∧
      (v.length = l.dataTypeSize → toList (arr_insert l v ok).2 = toList l ++ [v]) := by
  by_cases hf : l.size = l.capacity
  · obtain ⟨rfl, hd⟩ := hg hf
    have hw2 := wellFormed_grown l hw hd
    have hs2 : (grown l).size < (grown l).capacity := by
      show l.size < l.capacity * 2; omega
    rw [arr_insert_full l v hw hf hd hpos, if_pos hf]
    refine ⟨rfl, rfl, rfl, rfl, wellFormed_inserted _ v hw2, ?_, ?_, ?_, ?_⟩
    · show l.size + 1 ≤ l.capacity * 2; omega
    · intro j hj
      rw [current_inserted_other (grown l) v j hw2 hs2 hj, current_grown l j hw (by omega)]
    · intro hv
      exact current_inserted_same (grown l) v hw2 hs2 hv
    · intro hv
      rw [toList_inserted (grown l) v hw2 hs2 hv, toList_grown l hw hs]
  · have hs2 : l.size < l.capacity := by omega
    rw [arr_insert_room l v ok hw hs2, if_neg hf]
    refine ⟨rfl, rfl, rfl, rfl, wellFormed_inserted _ v hw, ?_, ?_, ?_, ?_⟩
    · show l.size + 1 ≤ l.capacity; omega
    · intro j hj
      exact current_inserted_other l v j hw hs2 hj
    · intro hv
      exact current_inserted_same l v hw hs2 hv
    · intro hv
      exact toList_inserted l v hw hs2 hv

theorem insertEach_spec (xs : List (List Byte)) : ∀ (l : ArrayList), WellFormed l →
    0 < l.capacity → l.size ≤ l.capacity → (∀ x ∈ xs, x.length = l.dataTypeSize) →
    GrowthFits l (l.size + xs.length) →
    WellFormed (insertEach l xs) ∧ (insertEach l xs).size = l.size + xs.length ∧
      (insertEach l xs).size ≤ (insertEach l xs).capacity ∧
      (insertEach l xs).dataTypeSize = l.dataTypeSize ∧
      toList (insertEach l xs) = toList l ++ xs := by
  induction xs with
  | nil =>
    intro l hw _ hs _ _
    exact ⟨hw, rfl, hs, rfl, (List.append_nil _).symm⟩
  | cons x xs ih =>
    intro l hw hpos hs hx hfit
    have hg : l.size = l.capacity → true = true ∧ Doubles l := by
      intro hf
      exact ⟨rfl, hfit.doubles (by simp only [List.length_cons]; omega)⟩
    obtain ⟨-, h2, h3, h4, h5, h6, -, -, h9⟩ := arr_insert_spec l x true hw hpos hs hg
    have hpos2 : 0 < (arr_insert l x true).2.capacity := by
      rw [h4]; split <;> omega
    have hfit2 : GrowthFits (arr_insert l x true).2 ((arr_insert l x true).2.size + xs.length) := by
      rw [h2, show l.size + 1 + xs.length = l.size + (x :: xs).length by
        simp only [List.length_cons]; omega]
      by_cases hf : l.size = l.capacity
      · rw [if_pos hf] at h4
        exact hfit.of_doubled h4 h3
      · rw [if_neg hf] at h4
        exact hfit.of_capacity h4 h3
    obtain ⟨i1, i2, i3, i4, i5⟩ := ih (arr_insert l x true).2 h5 hpos2 h6
      (by intro y hy; rw [h3]; exact hx y (List.mem_cons_of_mem _ hy)) hfit2
    refine ⟨i1, ?_, i3, i4.trans h3, ?_⟩
    · show (insertEach (arr_insert l x true).2 xs).size = _
      rw [i2, h2, List.length_cons]; omega
    · show toList (insertEach (arr_insert l x true).2 xs) = _
      rw [i5, h9 (hx x (List.mem_cons_self _ _)), List.append_assoc]; rfl

theorem wellFormed_arr_init (d : Nat) (h : Fits 10 d) (hd : d < SIZE_MOD) :
    WellFormed (arr_init d true) := by
  refine ⟨by show 10 < SIZE_MOD; decide, hd, ?_, h.2⟩
  show (malloc (wrap (INIT_CAPACITY * d)) true).length = INIT_CAPACITY * d
  unfold malloc
  rw [if_pos rfl, List.length_replicate]
  exact wrap_of_lt h.2

theorem toList_arr_init (d : Nat) (ok : Bool) : toList (arr_init d ok) = [] := rfl

theorem listIntMax_wellFormed : WellFormed listIntMax ∧ listIntMax.size < listIntMax.capacity := by
  refine ⟨⟨?_, ?_, ?_, ?_⟩, ?_⟩
  · show 2684354560 < SIZE_MOD; decide
  · show 1 < SIZE_MOD; decide
  · show (List.replicate 2684354560 0).length = 2684354560 * 1
    rw [List.length_replicate]
  · show 2684354560 * 1 < SIZE_MOD; decide
  · show 2147483647 < 2684354560; decide

theorem toList_take_of_current (l l2 : ArrayList) (hs : l.size ≤ l2.size)
    (h : ∀ j : Nat, j < l.size → current l2 j = current l j) :
    (toList l2).take l.size = toList l := by
  apply List.ext_getElem?
  intro j
  rw [List.getElem?_take, getElem?_toList, getElem?_toList]
  by_cases hj : j < l.size
  · rw [if_pos hj, if_pos (by omega), if_pos hj, h j hj]
  · rw [if_neg hj, if_neg hj]

/-- Insertion seen through `arr_get` while the sizes are `int` values: on a
list with `0 < capacity`, `size ≤ capacity` and `size < INT_MAX`, growth
succeeding when needed, `arr_insert(v)` returns 0,
adds one to the size, makes `arr_get(old size)` return the bytes of `v` and
leaves what `arr_get` returns at every index below the old size unchanged;
and after `arr_init` and the insertion of `x0 .. x(n-1)`, `n ≤ INT_MAX`,
every allocation succeeding, `arr_size` is `n` and `arr_get(i)` is `xi` for
every `i < n`. -/
theorem arr_insert_appends_of_int_size (l : ArrayList) (v : List Byte) (ok : Bool)
    (hw : WellFormed l) (hpos : 0 < l.capacity) (hs : l.size ≤ l.capacity)
    (hm : (l.size : Int) < INT_MAX) (hv : v.length = l.dataTypeSize)
    (hg : l.size = l.capacity → ok = true ∧ Doubles l)
    (d : Nat) (xs : List (List Byte)) (hx : ∀ x ∈ xs, x.length = d)
    (hn : (xs.length : Int) ≤ INT_MAX) (hd : d < SIZE_MOD) (hinit : Fits INIT_CAPACITY d)
    (hfit : GrowthFits (arr_init d true) xs.length) :
    ((arr_insert l v ok).1 = 0 ∧ (arr_insert l v ok).2.size = l.size + 1 ∧
        arr_get (arr_insert l v ok).2 (l.size : Int) = some v ∧
        ∀ j : Nat, j < l.size →
          arr_get (arr_insert l v ok).2 (j : Int) = arr_get l (j : Int) ∧
            current (arr_insert l v ok).2 j = current l j) ∧
      (arr_size (insertEach (arr_init d true) xs) = xs.length ∧
        ∀ i : Nat, i < xs.length →
          (arr_get (insertEach (arr_init d true) xs) (i : Int)) = xs[i]?) := by
  constructor
  · obtain ⟨h1, h2, -, -, -, -, h7, h8, -⟩ := arr_insert_spec l v ok hw hpos hs hg
    have hm2 : l.size < 2147483647 := by unfold INT_MAX at hm; omega
    have hm3 : (((arr_insert l v ok).2.size : Nat) : Int) ≤ INT_MAX := by
      rw [h2]; unfold INT_MAX; omega
    refine ⟨h1, h2, ?_, ?_⟩
    · rw [arr_get_eq _ _ (Int.ofNat_nonneg _) (by rw [h2]; omega) hm3, Int.toNat_ofNat, h8 hv]
    · intro j hj
      refine ⟨?_, h7 j hj⟩
      rw [arr_get_eq _ _ (Int.ofNat_nonneg _) (by rw [h2]; omega) hm3,
        arr_get_eq l _ (Int.ofNat_nonneg _) (by omega) (by unfold INT_MAX; omega),
        Int.toNat_ofNat, h7 j hj]
  · have hw0 := wellFormed_arr_init d hinit hd
    obtain ⟨-, i2, -, -, i5⟩ := insertEach_spec xs (arr_init d true) hw0
      (show 0 < 10 by omega) (show 0 ≤ 10 by omega) hx
      (by rw [show (arr_init d true).size + xs.length = xs.length from Nat.zero_add _]; exact hfit)
    have i2b : (insertEach (arr_init d true) xs).size = xs.length := by
      rw [i2]; show 0 + xs.length = xs.length; omega
    refine ⟨i2b, ?_⟩
    intro i hi
    rw [arr_get_eq _ _ (Int.ofNat_nonneg _) (by rw [i2b]; omega) (by rw [i2b]; exact hn),
      Int.toNat_ofNat]
    have := getElem?_toList (insertEach (arr_init d true) xs) i
    rw [i5, toList_arr_init, List.nil_append, if_pos (by rw [i2b]; exact hi)] at this
    exact this.symm

/-- Insertion at a full list of ten one-byte elements with an eleventh element
(the growth is made), and at the run that inserts 10, 20, 30 after `arr_init`:
size 3 and `get(1) == 20`. -/
theorem arr_insert_appends_of_int_size_example :
    ((arr_insert listFull [11] true).1 = 0 ∧
        (arr_insert listFull [11] true).2.size = 10 + 1 ∧
        arr_get (arr_insert listFull [11] true).2 10 = some [11] ∧
        arr_get (arr_insert listFull [11] true).2 1 = some [2]) ∧
      (arr_size (insertEach (arr_init 4 true) [[10, 0, 0, 0], [20, 0, 0, 0], [30, 0, 0, 0]]) = 3 ∧
        arr_get (insertEach (arr_init 4 true) [[10, 0, 0, 0], [20, 0, 0, 0], [30, 0, 0, 0]]) 1
          = some [20, 0, 0, 0]) := by
  have h := arr_insert_appends_of_int_size listFull [11] true (by decide) (by decide) (by decide)
    (by decide) (by decide) (by decide) 4 [[10, 0, 0, 0], [20, 0, 0, 0], [30, 0, 0, 0]]
    (by decide) (by decide) (by decide) (by decide) (GrowthFits.of_fits (by decide))
  exact ⟨⟨h.1.1, h.1.2.1, h.1.2.2.1, ((h.1.2.2.2 1 (by decide)).1).trans (by decide)⟩,
    h.2.1, h.2.2 1 (by decide)⟩

/-! ## `arr_insertAll` -/

theorem insertAll_copy_spec (args : List (List Byte)) : ∀ (n i : Nat) (l : ArrayList),
    WellFormed l → l.size + n ≤ l.capacity → i + n ≤ args.length →
    (∀ x ∈ args, x.length = l.dataTypeSize) →
    WellFormed (insertAll_copy args n i l) ∧ (insertAll_copy args n i l).size = l.size + n ∧
      (insertAll_copy args n i l).capacity = l.capacity ∧
      (insertAll_copy args n i l).dataTypeSize = l.dataTypeSize ∧
      toList (insertAll_copy args n i l) = toList l ++ (args.drop i).take n := by
  intro n
  induction n with
  | zero =>
    intro i l hw _ _ _
    exact ⟨hw, rfl, rfl, rfl, by simp [insertAll_copy]⟩
  | succ n ih =>
    intro i l hw hs hi hx
    have hlt : l.size < l.capacity := by omega
    obtain ⟨hle, hmod, -⟩ := slot_lt_mod hw hlt
    have hc := hw.1
    have hil : i < args.length := by omega
    have hget : args.getD i [] = args[i] := by
      rw [List.getD_eq_getElem?_getD, List.getElem?_eq_getElem hil]; rfl
    have hstep : insertAll_copy args (n + 1) i l
        = insertAll_copy args n (i + 1) (inserted l args[i]) := by
      show insertAll_copy args n (i + 1) _ = _
      rw [hget]
      unfold inserted memcpy
      rw [wrap_of_lt (by omega), wrap_of_lt (by omega)]
    have hv : args[i].length = l.dataTypeSize := hx _ (List.getElem_mem _)
    obtain ⟨i1, i2, i3, i4, i5⟩ := ih (i + 1) (inserted l args[i]) (wellFormed_inserted l _ hw)
      (by show l.size + 1 + n ≤ l.capacity; omega) (by omega) hx
    rw [hstep]
    refine ⟨i1, ?_, i3, i4, ?_⟩
    · rw [i2]; show l.size + 1 + n = _; omega
    · rw [i5, toList_inserted l _ hw hlt hv, List.append_assoc]
      congr 1
      rw [List.drop_eq_getElem_cons hil, List.take_succ_cons]
      rfl

theorem insertAll_grow_spec (c : Nat) (oks : Nat → Bool) (hoks : ∀ k, oks k = true) :
    ∀ (fuel k : Nat) (l : ArrayList), WellFormed l → 0 < l.capacity → l.size ≤ l.capacity →
    GrowthFits l (l.size + c) → l.size + c ≤ l.capacity * 2 ^ fuel →
    ∃ (l1 : ArrayList) (m : Nat), insertAll_grow (c : Int) oks fuel k l = some l1 ∧
      WellFormed l1 ∧ l1.size = l.size ∧ l1.dataTypeSize = l.dataTypeSize ∧
      l1.capacity = l.capacity * 2 ^ m ∧ l.size + c ≤ l.capacity * 2 ^ m ∧
      (∀ j : Nat, j < m → l.capacity * 2 ^ j < l.size + c) ∧
      toList l1 = toList l := by
  intro fuel
  induction fuel with
  | zero =>
    intro k l hw _ _ hfit hfuel
    have hlt := hfit.lt_mod (by assumption) hw.1
    have hc : c < SIZE_MOD := by omega
    refine ⟨l, 0, ?_, hw, rfl, rfl, by simp, by simpa using hfuel, by intro j hj; omega, rfl⟩
    unfold insertAll_grow
    rw [toSizeT_natCast hc, wrap_of_lt hlt, if_neg (by simp at hfuel; omega)]
  | succ fuel ih =>
    intro k l hw hpos hs hfit hfuel
    have hlt := hfit.lt_mod hpos hw.1
    have hc : c < SIZE_MOD := by omega
    by_cases hroom : l.size + c ≤ l.capacity
    · refine ⟨l, 0, ?_, hw, rfl, rfl, by simp, by simpa using hroom, by intro j hj; omega, rfl⟩
      unfold insertAll_grow
      rw [toSizeT_natCast hc, wrap_of_lt hlt, if_neg (by omega)]
    · have hd : Doubles l := hfit.doubles (by omega)
      have hw2 := wellFormed_grown l hw hd
      obtain ⟨l1, m, h1, h2, h3, h4, h5, h6, h7, h8⟩ := ih (k + 1) (grown l) hw2
        (by show 0 < l.capacity * 2; omega) (by show l.size ≤ l.capacity * 2; omega)
        (@GrowthFits.of_doubled l (grown l) _ hfit rfl rfl)
        (by show l.size + c ≤ l.capacity * 2 * 2 ^ fuel
            rw [Nat.mul_assoc, ← Nat.pow_succ']; exact hfuel)
      have e : ∀ j, l.capacity * 2 * 2 ^ j = l.capacity * 2 ^ (j + 1) := by
        intro j; rw [Nat.mul_assoc, ← Nat.pow_succ']
      refine ⟨l1, m + 1, ?_, h2, h3, h4, ?_, ?_, ?_, ?_⟩
      · unfold insertAll_grow
        rw [toSizeT_natCast hc, wrap_of_lt hlt, if_pos (by omega), hoks k,
          arr_resize_eq l hw hd]
        exact h1
      · rw [h5]; exact e m
      · have := h6; rw [show (grown l).capacity = l.capacity * 2 from rfl, e m] at this
        exact this
      · intro j hj
        cases j with
        | zero => simp; omega
        | succ j =>
          have := h7 j (by omega)
          rw [show (grown l).capacity = l.capacity * 2 from rfl, e j] at this
          exact this
      · rw [h8, toList_grown l hw hs]

theorem arr_insertAll_spec (l : ArrayList) (args : List (List Byte)) (oks : Nat → Bool)
    (fuel : Nat) (hw : WellFormed l) (hpos : 0 < l.capacity) (hs : l.size ≤ l.capacity)
    (hx : ∀ x ∈ args, x.length = l.dataTypeSize) (hoks : ∀ k, oks k = true)
    (hfit : GrowthFits l (l.size + args.length)) (hfuel : 64 ≤ fuel) :
    ∃ (l2 : ArrayList) (m : Nat), arr_insertAll l (args.length : Int) args oks fuel = some (0, l2) ∧
      WellFormed l2 ∧ l2.size = l.size + args.length ∧ l2.dataTypeSize = l.dataTypeSize ∧
      l2.capacity = l.capacity * 2 ^ m ∧ l.size + args.length ≤ l.capacity * 2 ^ m ∧
      (∀ j : Nat, j < m → l.capacity * 2 ^ j < l.size + args.length) ∧
      toList l2 = toList l ++ args := by
  have hpow : l.size + args.length ≤ l.capacity * 2 ^ fuel := by
    have h1 : 2 ^ 64 ≤ 2 ^ fuel := Nat.pow_le_pow_right (by omega) hfuel
    have h2 : 1 * 2 ^ fuel ≤ l.capacity * 2 ^ fuel := Nat.mul_le_mul_right _ hpos
    have h3 := hfit.lt_mod hpos hw.1
    unfold SIZE_MOD at h3
    have h4 : (2 : Nat) ^ 64 = 18446744073709551616 := by norm_num
    omega
  obtain ⟨l1, m, h1, h2, h3, h4, h5, h6, h7, h8⟩ :=
    insertAll_grow_spec args.length oks hoks fuel 0 l hw hpos hs hfit hpow
  obtain ⟨i1, i2, i3, i4, i5⟩ := insertAll_copy_spec args args.length 0 l1 h2
    (by rw [h3, h5]; exact h6) (by omega) (by intro x hx2; rw [h4]; exact hx x hx2)
  refine ⟨insertAll_copy args args.length 0 l1, m, ?_, i1, by rw [i2, h3], by rw [i4, h4],
    by rw [i3, h5], h6, h7, ?_⟩
  · unfold arr_insertAll
    rw [h1]
    simp
  · rw [i5, h8]; simp

/-! ## `genericComparator` and `arr_getIndexOf` -/

theorem memcmp_eq_zero_iff : ∀ (n : Nat) (a b : List Byte), a.length = n → b.length = n →
    (memcmp a b n = 0 ↔ a = b) := by
  intro n
  induction n with
  | zero =>
    intro a b ha hb
    rw [List.length_eq_zero.mp ha, List.length_eq_zero.mp hb]
    simp [memcmp]
  | succ n ih =>
    intro a b ha hb
    obtain ⟨x, a, rfl⟩ := List.exists_cons_of_length_eq_add_one ha
    obtain ⟨y, b, rfl⟩ := List.exists_cons_of_length_eq_add_one hb
    have ha2 : a.length = n := by simpa using ha
    have hb2 : b.length = n := by simpa using hb
    unfold memcmp
    simp only [List.headD_cons, List.tail_cons]
    by_cases hxy : x = y
    · subst hxy
      rw [if_pos rfl, ih a b ha2 hb2]
      simp
    · rw [if_neg hxy]
      constructor
      · intro h; exfalso; apply hxy; exact Int.ofNat.inj (sub_eq_zero.mp h)
      · intro h; exfalso; apply hxy; exact (List.cons.inj h).1

theorem length_current (l : ArrayList) (j : Nat) (hw : WellFormed l) (hj : j < l.capacity) :
    (current l j).length = l.dataTypeSize := by
  obtain ⟨hle, hlt, hlen⟩ := slot_lt_mod hw hj
  unfold current
  rw [wrap_of_lt (by omega)]
  exact length_load _ _ _ (by omega)

theorem genericComparator_eq_zero_iff (l : ArrayList) (data : List Byte) (cmpField : Comparator)
    (i : Nat) (hw : WellFormed l) (hi : i < l.capacity) (hd : data.length = l.dataTypeSize) :
    genericComparator (current l i) data l.dataTypeSize cmpField = 0 ↔ EqualAt l data cmpField i := by
  cases cmpField with
  | some f => exact Iff.rfl
  | none => exact memcmp_eq_zero_iff _ _ _ (length_current l i hw hi) hd

theorem getIndexOf_loop_spec (l : ArrayList) (data : List Byte) (cmpField : Comparator) :
    ∀ (n i : Nat),
      (getIndexOf_loop l data cmpField n i = -1 ∧ ∀ j : Nat, i ≤ j → j < i + n →
          ¬ genericComparator (current l j) data l.dataTypeSize cmpField = 0) ∨
      ∃ k : Nat, i ≤ k ∧ k < i + n ∧
        genericComparator (current l k) data l.dataTypeSize cmpField = 0 ∧
        (∀ j : Nat, i ≤ j → j < k →
          ¬ genericComparator (current l j) data l.dataTypeSize cmpField = 0) ∧
        getIndexOf_loop l data cmpField n i = toInt k := by
  intro n
  induction n with
  | zero =>
    intro i
    left
    exact ⟨rfl, by intro j h1 h2; omega⟩
  | succ n ih =>
    intro i
    by_cases hm : genericComparator (current l i) data l.dataTypeSize cmpField = 0
    · right
      refine ⟨i, Nat.le_refl _, by omega, hm, by intro j h1 h2; omega, ?_⟩
      unfold getIndexOf_loop
      rw [if_pos hm]
    · have hstep : getIndexOf_loop l data cmpField (n + 1) i
          = getIndexOf_loop l data cmpField n (i + 1) := by
        show (if _ then _ else _) = _
        rw [if_neg hm]
      rw [hstep]
      rcases ih (i + 1) with ⟨h1, h2⟩ | ⟨k, h1, h2, h3, h4, h5⟩
      · left
        refine ⟨h1, ?_⟩
        intro j hj1 hj2
        rcases Nat.eq_or_lt_of_le hj1 with h | h
        · rw [← h]; exact hm
        · exact h2 j h (by omega)
      · right
        refine ⟨k, by omega, by omega, h3, ?_, h5⟩
        intro j hj1 hj2
        rcases Nat.eq_or_lt_of_le hj1 with h | h
        · rw [← h]; exact hm
        · exact h4 j h hj2

theorem getIndexOf_loop_first (l : ArrayList) (data : List Byte) (cmpField : Comparator)
    (n k : Nat) (hk : k < n)
    (hm : genericComparator (current l k) data l.dataTypeSize cmpField = 0)
    (hn : ∀ j : Nat, j < k → ¬ genericComparator (current l j) data l.dataTypeSize cmpField = 0) :
    getIndexOf_loop l data cmpField n 0 = toInt k := by
  rcases getIndexOf_loop_spec l data cmpField n 0 with ⟨-, h2⟩ | ⟨k2, -, h2, h3, h4, h5⟩
  · exact absurd hm (h2 k (Nat.zero_le _) (by omega))
  · rcases Nat.lt_trichotomy k k2 with h | h | h
    · exact absurd hm (h4 k (Nat.zero_le _) h)
    · rw [h5, h]
    · exact absurd h3 (hn k2 h)

theorem listOneAt_wellFormed (n cap : Nat) (h : n + 1 ≤ cap) (hc : cap < SIZE_MOD) :
    WellFormed (listOneAt n cap) := by
  refine ⟨hc, by show 1 < SIZE_MOD; decide, ?_, by show cap * 1 < SIZE_MOD; omega⟩
  show (List.replicate n 0 ++ 1 :: List.replicate (cap - (n + 1)) 0).length = cap * 1
  rw [List.length_append, List.length_cons, List.length_replicate, List.length_replicate]
  omega

theorem current_listOneAt (n cap k : Nat) (h : n + 1 ≤ cap) (hc : cap < SIZE_MOD) (hk : k ≤ n) :
    current (listOneAt n cap) k = [if k < n then 0 else 1] := by
  apply List.ext_getElem?
  intro t
  rw [getElem?_current _ _ _ (by show k * 1 < SIZE_MOD; omega)]
  show (if t < 1 then
    (List.replicate n 0 ++ 1 :: List.replicate (cap - (n + 1)) 0)[k * 1 + t]? else none) = _
  by_cases ht : t < 1
  · have ht0 : t = 0 := by omega
    subst ht0
    rw [if_pos ht, Nat.mul_one, List.getElem?_append, List.length_replicate]
    simp only [Nat.add_zero]
    by_cases hkn : k < n
    · rw [if_pos hkn, if_pos hkn, List.getElem?_replicate, if_pos hkn]; rfl
    · have hkn2 : k = n := by omega
      subst hkn2
      rw [if_neg hkn, if_neg hkn, Nat.sub_self]; simp
  · rw [if_neg ht, List.getElem?_eq_none (by simp; omega)]

theorem arr_getIndexOf_listOneAt (n cap : Nat) (h : n + 1 ≤ cap) (hc : cap < SIZE_MOD) :
    EqualAt (listOneAt n cap) [1] none n ∧
      arr_getIndexOf (listOneAt n cap) [1] none = toInt n := by
  have hw := listOneAt_wellFormed n cap h hc
  have hE : ∀ k : Nat, k ≤ n → (genericComparator (current (listOneAt n cap) k) [1]
      (listOneAt n cap).dataTypeSize none = 0 ↔ k = n) := by
    intro k hk
    rw [genericComparator_eq_zero_iff (listOneAt n cap) [1] none k hw (show k < cap by omega)
      (show ([1] : List Byte).length = 1 from rfl)]
    show current (listOneAt n cap) k = [1] ↔ _
    rw [current_listOneAt n cap k h hc hk]
    by_cases hkn : k < n
    · rw [if_pos hkn]
      constructor
      · intro h0; exact absurd h0 (by decide)
      · intro h0; omega
    · rw [if_neg hkn]
      constructor
      · intro _; omega
      · intro _; rfl
  refine ⟨?_, ?_⟩
  · show current (listOneAt n cap) n = [1]
    rw [current_listOneAt n cap n h hc (Nat.le_refl _), if_neg (Nat.lt_irrefl _)]
  · exact getIndexOf_loop_first _ _ _ (n + 1) n (by omega) ((hE n (Nat.le_refl _)).mpr rfl)
      (by intro j hj hm; have := (hE j (by omega)).mp hm; omega)

/-! ## The sort of `arr_deleteAll` -/

theorem getD_swap (a : List Int) (i j k : Nat) (hi : i < a.length) (hj : j < a.length) :
    ((a.set i (a.getD j 0)).set j (a.getD i 0)).getD k 0 =
      if k = j then a.getD i 0 else if k = i then a.getD j 0 else a.getD k 0 := by
  simp only [List.getD_eq_getElem?_getD, List.getElem?_set, List.length_set]
  by_cases h1 : k = j
  · subst h1; simp [hj]
  · by_cases h2 : k = i
    · subst h2
      have : ¬ j = k := fun h => h1 h.symm
      simp [this, hi, h1]
    · have e1 : ¬ j = k := fun h => h1 h.symm
      have e2 : ¬ i = k := fun h => h2 h.symm
      simp [e1, e2, h1, h2]

theorem perm_swap (a : List Int) (i j : Nat) (hi : i < a.length) (hj : j < a.length)
    (hne : i ≠ j) : ((a.set i (a.getD j 0)).set j (a.getD i 0)).Perm a := by
  have ei : a.getD i 0 = a[i] := by
    rw [List.getD_eq_getElem?_getD, List.getElem?_eq_getElem hi]; rfl
  have ej : a.getD j 0 = a[j] := by
    rw [List.getD_eq_getElem?_getD, List.getElem?_eq_getElem hj]; rfl
  rw [List.perm_iff_count]
  intro x
  rw [List.count_set _ _ _ _ (by rw [List.length_set]; exact hj), List.count_set _ _ _ _ hi,
    List.getElem_set, if_neg hne, ei, ej]
  have h1 : (if (a[i] == x) = true then 1 else 0) ≤ List.count x a := by
    split
    · rename_i h
      have : a[i] = x := by simpa using h
      exact List.one_le_count_iff.mpr (this ▸ List.getElem_mem hi)
    · exact Nat.zero_le _
  generalize (if (a[i] == x) = true then 1 else 0) = u at h1 ⊢
  generalize (if (a[j] == x) = true then 1 else 0) = v
  omega

theorem sortInner_spec (i count : Nat) : ∀ (n j : Nat) (a : List Int), i < j → j + n = count →
    a.length = count →
    (deleteAll_sortInner i n j a).Perm a ∧
      (∀ k : Nat, k < j → k ≠ i → (deleteAll_sortInner i n j a).getD k 0 = a.getD k 0) ∧
      (∀ k : Nat, j ≤ k → k < count →
        (deleteAll_sortInner i n j a).getD k 0 ≤ (deleteAll_sortInner i n j a).getD i 0) ∧
      a.getD i 0 ≤ (deleteAll_sortInner i n j a).getD i 0 ∧
      (∀ B : Int, (∀ k : Nat, i ≤ k → k < count → a.getD k 0 ≤ B) →
        ∀ k : Nat, i ≤ k → k < count → (deleteAll_sortInner i n j a).getD k 0 ≤ B) := by
  intro n
  induction n with
  | zero =>
    intro j a _ hj _
    refine ⟨List.Perm.refl _, fun _ _ _ => rfl, ?_, Int.le_refl _, fun _ h => h⟩
    intro k h1 h2; omega
  | succ n ih =>
    intro j a hij hj hlen
    have hi : i < a.length := by omega
    have hjl : j < a.length := by omega
    by_cases hlt : a.getD i 0 < a.getD j 0
    · have hstep : deleteAll_sortInner i (n + 1) j a
          = deleteAll_sortInner i n (j + 1) ((a.set i (a.getD j 0)).set j (a.getD i 0)) := by
        show deleteAll_sortInner i n (j + 1) _ = _
        rw [if_pos hlt]
      have hsw := getD_swap a i j
      obtain ⟨p1, p2, p3, p4, p5⟩ := ih (j + 1) ((a.set i (a.getD j 0)).set j (a.getD i 0))
        (by omega) (by omega) (by simp [hlen])
      rw [hstep]
      refine ⟨p1.trans (perm_swap a i j hi hjl (by omega)), ?_, ?_, ?_, ?_⟩
      · intro k hk hne
        rw [p2 k (by omega) hne, hsw k hi hjl, if_neg (by omega), if_neg hne]
      · intro k hk1 hk2
        rcases Nat.eq_or_lt_of_le hk1 with h | h
        · subst h
          have e := p2 j (by omega) (by omega)
          rw [hsw j hi hjl, if_pos rfl] at e
          rw [hsw i hi hjl, if_neg (by omega), if_pos rfl] at p4
          rw [e]; omega
        · exact p3 k h hk2
      · rw [hsw i hi hjl, if_neg (by omega), if_pos rfl] at p4
        omega
      · intro B hB
        apply p5 B
        intro k hk1 hk2
        rw [hsw k hi hjl]
        split
        · exact hB i (Nat.le_refl _) (by omega)
        · split
          · exact hB j (by omega) (by omega)
          · exact hB k hk1 hk2
    · have hstep : deleteAll_sortInner i (n + 1) j a = deleteAll_sortInner i n (j + 1) a := by
        show deleteAll_sortInner i n (j + 1) _ = _
        rw [if_neg hlt]
      obtain ⟨p1, p2, p3, p4, p5⟩ := ih (j + 1) a (by omega) (by omega) hlen
      rw [hstep]
      refine ⟨p1, ?_, ?_, p4, p5⟩
      · intro k hk hne
        exact p2 k (by omega) hne
      · intro k hk1 hk2
        rcases Nat.eq_or_lt_of_le hk1 with h | h
        · subst h
          rw [p2 j (by omega) (by omega)]
          omega
        · exact p3 k h hk2

theorem sortOuter_spec (count : Nat) : ∀ (n i : Nat) (a : List Int), i + n + 1 = count →
    a.length = count →
    (∀ p q : Nat, p < q → p < i → q < count → a.getD q 0 ≤ a.getD p 0) →
    (deleteAll_sortOuter count n i a).Perm a ∧
      ∀ p q : Nat, p < q → q < count →
        (deleteAll_sortOuter count n i a).getD q 0 ≤ (deleteAll_sortOuter count n i a).getD p 0 := by
  intro n
  induction n with
  | zero =>
    intro i a hi _ hinv
    refine ⟨List.Perm.refl _, ?_⟩
    intro p q hpq hq
    exact hinv p q hpq (by omega) hq
  | succ n ih =>
    intro i a hi hlen hinv
    obtain ⟨p1, p2, p3, -, p5⟩ := sortInner_spec i count (count - (i + 1)) (i + 1) a (by omega)
      (by omega) hlen
    obtain ⟨q1, q2⟩ := ih (i + 1) (deleteAll_sortInner i (count - (i + 1)) (i + 1) a) (by omega)
      (by rw [p1.length_eq]; exact hlen) (by
        intro p q hpq hp hq
        rcases Nat.eq_or_lt_of_le (Nat.le_of_lt_succ hp) with h | h
        · subst h
          exact p3 q (by omega) hq
        · rw [p2 p (by omega) (by omega)]
          rcases Nat.lt_or_ge q i with h2 | h2
          · rw [p2 q (by omega) (by omega)]
            exact hinv p q hpq h hq
          · exact p5 (a.getD p 0) (fun k hk1 hk2 => hinv p k (by omega) h hk2) q h2 hq)
    exact ⟨q1.trans p1, q2⟩

theorem sortOuter_sorted (a : List Int) :
    (deleteAll_sortOuter a.length (a.length - 1) 0 a).Perm a ∧
      (deleteAll_sortOuter a.length (a.length - 1) 0 a).Sorted (· ≥ ·) := by
  rcases Nat.eq_zero_or_pos a.length with h0 | hpos
  · rw [h0]
    have : a = [] := List.length_eq_zero.mp h0
    subst this
    exact ⟨List.Perm.refl _, List.sorted_nil⟩
  · obtain ⟨h1, h2⟩ := sortOuter_spec a.length (a.length - 1) 0 a (by omega) rfl
      (by intro p q _ hp; omega)
    refine ⟨h1, ?_⟩
    show List.Pairwise _ _
    rw [List.pairwise_iff_getElem]
    intro p q hp hq hpq
    have := h2 p q hpq (by rw [h1.length_eq] at hq; exact hq)
    rw [List.getD_eq_getElem?_getD, List.getD_eq_getElem?_getD, List.getElem?_eq_getElem hp,
      List.getElem?_eq_getElem hq] at this
    exact this

theorem deleteAll_read_eq (args : List Int) : ∀ (n i : Nat), i + n ≤ args.length →
    deleteAll_read args n i = (args.drop i).take n := by
  intro n
  induction n with
  | zero => intro i _; simp [deleteAll_read]
  | succ n ih =>
    intro i hi
    have hil : i < args.length := by omega
    unfold deleteAll_read
    rw [ih (i + 1) (by omega), List.drop_eq_getElem_cons hil, List.take_succ_cons,
      List.getD_eq_getElem?_getD, List.getElem?_eq_getElem hil]
    rfl

/-! ## `arr_deleteAll` -/

theorem survivors_from_all (S : List Int) : ∀ (xs : List (List Byte)) (k : Nat),
    (∀ b ∈ S, b < (k : Int)) →
    ((xs.enumFrom k).filter (fun p => decide (¬ ((p.1 : Nat) : Int) ∈ S))).map Prod.snd = xs := by
  intro xs
  induction xs with
  | nil => intro k _; rfl
  | cons x xs ih =>
    intro k hS
    have hk : ¬ (k : Int) ∈ S := fun h => by have := hS _ h; omega
    rw [List.enumFrom_cons, List.filter_cons_of_pos (by simpa using hk), List.map_cons,
      ih (k + 1) (by intro b hb; have := hS b hb; omega)]

theorem survivors_from_eraseIdx (i : Nat) (rest : List Int) (hrest : ∀ b ∈ rest, b < (i : Int)) :
    ∀ (xs : List (List Byte)) (k : Nat), k ≤ i → i < k + xs.length →
    ((List.enumFrom k (xs.eraseIdx (i - k))).filter
        (fun p => decide (¬ ((p.1 : Nat) : Int) ∈ rest))).map Prod.snd =
      ((List.enumFrom k xs).filter
        (fun p => decide (¬ ((p.1 : Nat) : Int) ∈ (i : Int) :: rest))).map Prod.snd := by
  intro xs
  induction xs with
  | nil => intro k h1 h2; simp at h2; omega
  | cons x xs ih =>
    intro k h1 h2
    rcases Nat.eq_or_lt_of_le h1 with h | h
    · subst h
      rw [Nat.sub_self, List.eraseIdx_cons_zero, List.enumFrom_cons,
        List.filter_cons_of_neg (by simp),
        survivors_from_all rest xs k hrest,
        survivors_from_all ((k : Int) :: rest) xs (k + 1) (by
          intro b hb
          rcases List.mem_cons.mp hb with hb | hb
          · omega
          · have := hrest b hb; omega)]
    · obtain ⟨d, hd⟩ : ∃ d, i - k = d + 1 := ⟨i - k - 1, by omega⟩
      have hd2 : i - (k + 1) = d := by omega
      have hmem : (k : Int) ∈ (i : Int) :: rest ↔ (k : Int) ∈ rest := by
        rw [List.mem_cons]
        constructor
        · rintro (h3 | h3)
          · omega
          · exact h3
        · exact Or.inr
      have hih := ih (k + 1) (by omega) (by simp at h2 ⊢; omega)
      rw [hd2] at hih
      rw [hd, List.eraseIdx_cons_succ, List.enumFrom_cons, List.enumFrom_cons]
      by_cases hk : (k : Int) ∈ rest
      · rw [List.filter_cons_of_neg (by simpa using hk),
          List.filter_cons_of_neg (by
            simp only [decide_not, Bool.not_eq_true', decide_eq_false_iff_not, not_not]
            exact hmem.mpr hk)]
        exact hih
      · rw [List.filter_cons_of_pos (by simpa using hk),
          List.filter_cons_of_pos (by
            simp only [decide_not, Bool.not_eq_true', decide_eq_false_iff_not]
            exact fun h => hk (hmem.mp h)), List.map_cons,
          List.map_cons, hih]

theorem survivors_eraseIdx (xs : List (List Byte)) (i : Nat) (rest : List Int)
    (hrest : ∀ b ∈ rest, b < (i : Int)) (hi : i < xs.length) :
    survivors (xs.eraseIdx i) rest = survivors xs ((i : Int) :: rest) := by
  have := survivors_from_eraseIdx i rest hrest xs 0 (Nat.zero_le _) (by omega)
  rwa [Nat.sub_zero] at this

theorem deleteAll_apply_spec (sorted : List Int) : ∀ (l : ArrayList), WellFormed l →
    l.size ≤ l.capacity → sorted.Sorted (· > ·) → (∀ b ∈ sorted, 0 ≤ b ∧ b < (l.size : Int)) →
    WellFormed (deleteAll_apply sorted l) ∧
      (deleteAll_apply sorted l).size + sorted.length = l.size ∧
      (deleteAll_apply sorted l).capacity = l.capacity ∧
      (deleteAll_apply sorted l).dataTypeSize = l.dataTypeSize ∧
      toList (deleteAll_apply sorted l) = survivors (toList l) sorted := by
  induction sorted with
  | nil =>
    intro l hw _ _ _
    refine ⟨hw, rfl, rfl, rfl, ?_⟩
    have := survivors_from_all [] (toList l) 0 (by intro b hb; cases hb)
    exact this.symm
  | cons i rest ih =>
    intro l hw hs hsorted hvalid
    obtain ⟨h0, h1⟩ := hvalid i (List.mem_cons_self _ _)
    obtain ⟨n, rfl⟩ := Int.eq_ofNat_of_zero_le h0
    have hn : n < l.size := by exact_mod_cast h1
    have hrest : ∀ b ∈ rest, b < (n : Int) := fun b hb => List.rel_of_sorted_cons hsorted b hb
    have hstep : deleteAll_apply ((n : Int) :: rest) l = deleteAll_apply rest (deleted l n) := by
      show deleteAll_apply rest (arr_delete l (n : Int)).2 = _
      rw [arr_delete_eq l _ hw hs h0 h1]
      rfl
    obtain ⟨i1, i2, i3, i4, i5⟩ := ih (deleted l n) (wellFormed_deleted l n hw)
      (by show l.size - 1 ≤ l.capacity; omega) hsorted.of_cons (by
        intro b hb
        have h2 := hrest b hb
        refine ⟨(hvalid b (List.mem_cons_of_mem _ hb)).1, ?_⟩
        show b < ((l.size - 1 : Nat) : Int)
        omega)
    rw [hstep]
    refine ⟨i1, ?_, i3, i4, ?_⟩
    · rw [List.length_cons]
      have : (deleted l n).size = l.size - 1 := rfl
      omega
    · rw [i5, toList_deleted l n hw hs hn]
      exact survivors_eraseIdx (toList l) n rest hrest (by rw [length_toList]; exact hn)

theorem sorted_gt_of_nodup (a : List Int) (h : a.Sorted (· ≥ ·)) (hnd : a.Nodup) :
    a.Sorted (· > ·) := by
  have := List.Pairwise.and h hnd
  exact this.imp (fun {x y} hxy => by obtain ⟨h1, h2⟩ := hxy; omega)

theorem arr_deleteAll_eq (l : ArrayList) (batch : List Int) :
    arr_deleteAll l (batch.length : Int) batch =
      (0, deleteAll_apply (deleteAll_sortOuter batch.length (batch.length - 1) 0 batch) l) := by
  unfold arr_deleteAll
  simp only [Int.toNat_ofNat]
  rw [deleteAll_read_eq batch batch.length 0 (by omega)]
  simp

theorem sortOuter_perm_eq (a b : List Int) (h : a.Perm b) :
    deleteAll_sortOuter a.length (a.length - 1) 0 a
      = deleteAll_sortOuter b.length (b.length - 1) 0 b := by
  obtain ⟨p1, s1⟩ := sortOuter_sorted a
  obtain ⟨p2, s2⟩ := sortOuter_sorted b
  exact List.eq_of_perm_of_sorted (p1.trans (h.trans p2.symm)) s1 s2

/-! ## Reachable lists -/

theorem reachable_insertEach (xs : List (List Byte)) : ∀ (l : ArrayList), Reachable l →
    Reachable (insertEach l xs) := by
  induction xs with
  | nil => intro l h; exact h
  | cons x xs ih => intro l h; exact ih _ (Reachable.insert l x true h)

/-! ## `arr_deleteFirst` -/

theorem deleteFirst_loop_spec (l : ArrayList) (data : List Byte) (cmpField : Comparator) :
    ∀ (n i : Nat),
      (deleteFirst_loop l data cmpField n i = (1, l) ∧
        getIndexOf_loop l data cmpField n i = -1 ∧
        ∀ j : Nat, i ≤ j → j < i + n →
          ¬ genericComparator (current l j) data l.dataTypeSize cmpField = 0) ∨
      ∃ k : Nat, i ≤ k ∧ k < i + n ∧
        genericComparator (current l k) data l.dataTypeSize cmpField = 0 ∧
        (∀ j : Nat, i ≤ j → j < k →
          ¬ genericComparator (current l j) data l.dataTypeSize cmpField = 0) ∧
        deleteFirst_loop l data cmpField n i = (0, (arr_delete l (toInt k)).2) ∧
        getIndexOf_loop l data cmpField n i = toInt k := by
  intro n
  induction n with
  | zero =>
    intro i
    left
    exact ⟨rfl, rfl, by intro j h1 h2; omega⟩
  | succ n ih =>
    intro i
    by_cases hm : genericComparator (current l i) data l.dataTypeSize cmpField = 0
    · right
      refine ⟨i, Nat.le_refl _, by omega, hm, by intro j h1 h2; omega, ?_, ?_⟩
      · unfold deleteFirst_loop
        rw [if_pos hm]
      · unfold getIndexOf_loop
        rw [if_pos hm]
    · have hstep1 : deleteFirst_loop l data cmpField (n + 1) i
          = deleteFirst_loop l data cmpField n (i + 1) := by
        show (if _ then _ else _) = _
        rw [if_neg hm]
      have hstep2 : getIndexOf_loop l data cmpField (n + 1) i
          = getIndexOf_loop l data cmpField n (i + 1) := by
        show (if _ then _ else _) = _
        rw [if_neg hm]
      rw [hstep1, hstep2]
      rcases ih (i + 1) with ⟨h1, h2, h3⟩ | ⟨k, h1, h2, h3, h4, h5, h6⟩
      · left
        refine ⟨h1, h2, ?_⟩
        intro j hj1 hj2
        rcases Nat.eq_or_lt_of_le hj1 with h | h
        · rw [← h]; exact hm
        · exact h3 j h (by omega)
      · right
        refine ⟨k, by omega, by omega, h3, ?_, h5, h6⟩
        intro j hj1 hj2
        rcases Nat.eq_or_lt_of_le hj1 with h | h
        · rw [← h]; exact hm
        · exact h4 j h hj2

theorem toInt_nonneg_of_le {n : Nat} (h : (n : Int) ≤ INT_MAX) : toInt n ≠ -1 := by
  rw [toInt_of_le h]; omega

/-! ## Capacity -/

theorem capacity_arr_delete (l : ArrayList) (i : Int) : (arr_delete l i).2.capacity = l.capacity := by
  unfold arr_delete
  split <;> rfl

theorem capacity_arr_set (l : ArrayList) (i : Int) (v : List Byte) :
    (arr_set l i v).2.capacity = l.capacity := by
  unfold arr_set
  split <;> rfl

theorem capacity_deleteAll_apply (s : List Int) : ∀ (l : ArrayList),
    (deleteAll_apply s l).capacity = l.capacity := by
  induction s with
  | nil => intro l; rfl
  | cons i s ih =>
    intro l
    show (deleteAll_apply s (arr_delete l i).2).capacity = _
    rw [ih, capacity_arr_delete]

theorem capacity_deleteFirst_loop (l : ArrayList) (data : List Byte) (cmpField : Comparator) :
    ∀ (n i : Nat), (deleteFirst_loop l data cmpField n i).2.capacity = l.capacity := by
  intro n
  induction n with
  | zero => intro i; rfl
  | succ n ih =>
    intro i
    unfold deleteFirst_loop
    split
    · exact capacity_arr_delete l _
    · exact ih (i + 1)

theorem capacity_arr_resize (l : ArrayList) (ok : Bool)
    (h : ok = true → l.capacity * 2 < SIZE_MOD) : l.capacity ≤ (arr_resize l ok).capacity := by
  cases ok with
  | false => exact Nat.le_refl _
  | true =>
    show l.capacity ≤ wrap (l.capacity * 2)
    rw [wrap_of_lt (h rfl)]
    omega

theorem capacity_arr_insert (l : ArrayList) (v : List Byte) (ok : Bool)
    (h : l.size = l.capacity → ok = true → l.capacity * 2 < SIZE_MOD) :
    l.capacity ≤ (arr_insert l v ok).2.capacity := by
  unfold arr_insert
  by_cases hf : l.size = l.capacity
  · simp only [if_pos hf]
    exact capacity_arr_resize l ok (h hf)
  · simp only [if_neg hf]
    exact Nat.le_refl _

theorem capacity_insertAll_copy (args : List (List Byte)) : ∀ (n i : Nat) (l : ArrayList),
    (insertAll_copy args n i l).capacity = l.capacity := by
  intro n
  induction n with
  | zero => intro i l; rfl
  | succ n ih =>
    intro i l
    unfold insertAll_copy
    exact ih (i + 1) _

theorem capacity_insertAll_grow (count : Int) (oks : Nat → Bool) :
    ∀ (fuel k : Nat) (l l1 : ArrayList), GrowthFits l (wrap (l.size + toSizeT count)) →
    insertAll_grow count oks fuel k l = some l1 → l.capacity ≤ l1.capacity := by
  intro fuel
  induction fuel with
  | zero =>
    intro k l l1 _ h
    unfold insertAll_grow at h
    split at h
    · exact absurd h (by simp)
    · rw [← Option.some.inj h]
  | succ fuel ih =>
    intro k l l1 hfit h
    unfold insertAll_grow at h
    split at h
    · rename_i hc
      have hd := hfit.doubles hc
      have h1 := capacity_arr_resize l (oks k) (fun _ => hd.1)
      have hfit2 : GrowthFits (arr_resize l (oks k))
          (wrap ((arr_resize l (oks k)).size + toSizeT count)) := by
        cases hok : oks k with
        | false => exact hfit
        | true =>
          exact @GrowthFits.of_doubled l (arr_resize l true) _ hfit
            (show wrap (l.capacity * 2) = l.capacity * 2 from wrap_of_lt hd.1) rfl
      exact Nat.le_trans h1 (ih (k + 1) _ l1 hfit2 h)
    · rw [← Option.some.inj h]

theorem capacity_arr_insertAll (l : ArrayList) (count : Int) (args : List (List Byte))
    (oks : Nat → Bool) (fuel : Nat) (r : Int × ArrayList)
    (hfit : GrowthFits l (wrap (l.size + toSizeT count)))
    (h : arr_insertAll l count args oks fuel = some r) : l.capacity ≤ r.2.capacity := by
  unfold arr_insertAll at h
  split at h
  · exact absurd h (by simp)
  · rename_i l1 hl1
    rw [← Option.some.inj h]
    show l.capacity ≤ (insertAll_copy args count.toNat 0 l1).capacity
    rw [capacity_insertAll_copy]
    exact capacity_insertAll_grow count oks fuel 0 l l1 hfit hl1

/-! ## Status codes -/

theorem toSizeT_lt_of_lt {i : Int} {n : Nat} (h0 : 0 ≤ i) (h1 : i < (n : Int)) :
    toSizeT i < n := by
  unfold toSizeT SIZE_MOD
  omega

theorem arr_delete_fst_valid (l : ArrayList) (i : Int) (h0 : 0 ≤ i) (h1 : i < (l.size : Int)) :
    (arr_delete l i).1 = 0 := by
  have := toSizeT_lt_of_lt h0 h1
  unfold arr_delete
  rw [if_neg (by omega)]

theorem arr_set_fst_valid (l : ArrayList) (i : Int) (v : List Byte) (h0 : 0 ≤ i)
    (h1 : i < (l.size : Int)) : (arr_set l i v).1 = 0 := by
  have := toSizeT_lt_of_lt h0 h1
  unfold arr_set
  rw [if_neg (by omega)]

/-! ## The growth loop that does not end -/

theorem insertAll_grow_none (count : Int) (oks : Nat → Bool) (P : ArrayList → Prop)
    (hP : ∀ (l : ArrayList) (k : Nat), P l → P (arr_resize l (oks k)))
    (hc : ∀ l : ArrayList, P l → wrap (l.size + toSizeT count) > l.capacity) :
    ∀ (fuel k : Nat) (l : ArrayList), P l → insertAll_grow count oks fuel k l = none := by
  intro fuel
  induction fuel with
  | zero =>
    intro k l hl
    unfold insertAll_grow
    rw [if_pos (hc l hl)]
  | succ fuel ih =>
    intro k l hl
    unfold insertAll_grow
    rw [if_pos (hc l hl)]
    exact ih (k + 1) _ (hP l k hl)

theorem arr_insertAll_none (l : ArrayList) (count : Int) (args : List (List Byte))
    (oks : Nat → Bool) (P : ArrayList → Prop)
    (hP : ∀ (l : ArrayList) (k : Nat), P l → P (arr_resize l (oks k)))
    (hc : ∀ l : ArrayList, P l → wrap (l.size + toSizeT count) > l.capacity) (hl : P l)
    (fuel : Nat) : arr_insertAll l count args oks fuel = none := by
  unfold arr_insertAll
  rw [insertAll_grow_none count oks P hP hc fuel 0 l hl]

theorem arr_resize_listNoSlot (ok : Bool) : arr_resize listNoSlot ok = listNoSlot := by
  cases ok <;> decide

theorem even_capacity_arr_resize (l : ArrayList) (ok : Bool)
    (h : l.size = 0 ∧ l.capacity % 2 = 0 ∧ l.capacity < SIZE_MOD) :
    (arr_resize l ok).size = 0 ∧ (arr_resize l ok).capacity % 2 = 0 ∧
      (arr_resize l ok).capacity < SIZE_MOD := by
  cases ok with
  | false => exact h
  | true =>
    refine ⟨h.1, ?_, ?_⟩
    · show wrap (l.capacity * 2) % 2 = 0
      unfold wrap SIZE_MOD
      omega
    · show wrap (l.capacity * 2) < SIZE_MOD
      exact Nat.mod_lt _ (by decide)

/-! ## Batches with entries out of range -/

theorem deleteAll_apply_nonneg (s : List Int) : ∀ (l : ArrayList),
    deleteAll_apply s l = deleteAll_apply (s.filter (fun b => decide (0 ≤ b))) l := by
  induction s with
  | nil => intro l; rfl
  | cons b s ih =>
    intro l
    by_cases hb : 0 ≤ b
    · rw [List.filter_cons_of_pos (by simpa using hb)]
      show deleteAll_apply s (arr_delete l b).2 = deleteAll_apply _ (arr_delete l b).2
      exact ih _
    · rw [List.filter_cons_of_neg (by simpa using hb)]
      show deleteAll_apply s (arr_delete l b).2 = _
      have : arr_delete l b = (-1, l) := by
        unfold arr_delete
        rw [if_pos (Or.inl (by omega))]
      rw [this]
      exact ih l

theorem deleteAll_apply_validEntries (s : List Int) (l : ArrayList) (hs : s.Sorted (· ≥ ·))
    (hint : ∀ b ∈ s, IsInt b) : deleteAll_apply s l = deleteAll_apply (validEntries l s) l := by
  induction s with
  | nil => rfl
  | cons b s ih =>
    have hs2 : s.Sorted (· ≥ ·) := hs.of_cons
    have hint2 : ∀ c ∈ s, IsInt c := fun c hc => hint c (List.mem_cons_of_mem _ hc)
    by_cases hb : (l.size : Int) ≤ b
    · have hskip : arr_delete l b = (-1, l) :=
        arr_delete_invalid l b (hint b (List.mem_cons_self _ _)) (Or.inr hb)
      have hf : validEntries l (b :: s) = validEntries l s := by
        unfold validEntries
        rw [List.filter_cons_of_neg (by simp; omega)]
      rw [hf, ← ih hs2 hint2]
      show deleteAll_apply s (arr_delete l b).2 = _
      rw [hskip]
    · have hall : ∀ c ∈ b :: s, c < (l.size : Int) := by
        intro c hc
        rcases List.mem_cons.mp hc with h | h
        · rw [h]; omega
        · have := List.rel_of_sorted_cons hs c h
          omega
      have hf : validEntries l (b :: s) = (b :: s).filter (fun c => decide (0 ≤ c)) := by
        unfold validEntries
        apply List.filter_congr
        intro c hc
        have := hall c hc
        simp [this]
      rw [hf]
      exact deleteAll_apply_nonneg (b :: s) l

theorem sortOuter_validEntries (l : ArrayList) (batch : List Int) :
    deleteAll_sortOuter (validEntries l batch).length ((validEntries l batch).length - 1) 0
        (validEntries l batch)
      = validEntries l (deleteAll_sortOuter batch.length (batch.length - 1) 0 batch) := by
  obtain ⟨p1, s1⟩ := sortOuter_sorted (validEntries l batch)
  obtain ⟨p2, s2⟩ := sortOuter_sorted batch
  have hp : (validEntries l batch).Perm
      (validEntries l (deleteAll_sortOuter batch.length (batch.length - 1) 0 batch)) :=
    (p2.filter _).symm
  have hs : (validEntries l (deleteAll_sortOuter batch.length (batch.length - 1) 0 batch)).Sorted
      (· ≥ ·) := s2.filter _
  exact List.eq_of_perm_of_sorted (p1.trans hp) s1 hs

theorem arr_deleteAll_validEntries (l : ArrayList) (batch : List Int)
    (hint : ∀ b ∈ batch, IsInt b) :
    arr_deleteAll l (batch.length : Int) batch
      = arr_deleteAll l ((validEntries l batch).length : Int) (validEntries l batch) := by
  obtain ⟨p, s⟩ := sortOuter_sorted batch
  rw [arr_deleteAll_eq, arr_deleteAll_eq, sortOuter_validEntries,
    deleteAll_apply_validEntries _ l s (fun b hb => hint b (p.mem_iff.mp hb))]

/-! ## Batches without repeats -/

theorem survivors_congr (xs : List (List Byte)) (S T : List Int)
    (h : ∀ k : Nat, k < xs.length → ((k : Int) ∈ S ↔ (k : Int) ∈ T)) :
    survivors xs S = survivors xs T := by
  unfold survivors
  congr 1
  apply List.filter_congr
  intro p hp
  have hlt : p.1 < xs.length := by
    have := (List.mem_enum_iff_getElem?).mp hp
    exact (List.getElem?_eq_some.mp this).1
  exact decide_eq_decide.mpr (not_congr (h p.1 hlt))

theorem mem_validEntries (l : ArrayList) (batch : List Int) (k : Nat) (hk : k < l.size) :
    (k : Int) ∈ validEntries l batch ↔ (k : Int) ∈ batch := by
  unfold validEntries
  rw [List.mem_filter]
  constructor
  · exact fun h => h.1
  · intro h
    refine ⟨h, ?_⟩
    simp
    omega

theorem arr_deleteAll_nodup (l : ArrayList) (batch : List Int) (hw : WellFormed l)
    (hs : l.size ≤ l.capacity) (hnd : batch.Nodup) (hint : ∀ b ∈ batch, IsInt b) :
    toList (arr_deleteAll l (batch.length : Int) batch).2 = survivors (toList l) batch ∧
      (arr_deleteAll l (batch.length : Int) batch).2.size + (validEntries l batch).length
        = l.size := by
  have hv : ∀ b ∈ validEntries l batch, 0 ≤ b ∧ b < (l.size : Int) := by
    intro b hb
    have := (List.mem_filter.mp hb).2
    simpa using this
  have hnd2 : (validEntries l batch).Nodup := hnd.filter _
  obtain ⟨p, s⟩ := sortOuter_sorted (validEntries l batch)
  have s2 := sorted_gt_of_nodup _ s ((p.nodup_iff).mpr hnd2)
  obtain ⟨-, i2, -, -, i5⟩ := deleteAll_apply_spec _ l hw hs s2
    (fun b hb => hv b ((p.mem_iff).mp hb))
  rw [arr_deleteAll_validEntries l batch hint, arr_deleteAll_eq]
  constructor
  · show toList (deleteAll_apply _ l) = _
    rw [i5]
    apply survivors_congr
    intro k hk
    rw [length_toList] at hk
    rw [p.mem_iff]
    exact mem_validEntries l batch k hk
  · show (deleteAll_apply _ l).size + _ = _
    rw [← i2, p.length_eq]

/-! ## Batch insertion and successive insertions -/

theorem mul_two_pow_succ (c j : Nat) : c * 2 * 2 ^ j = c * 2 ^ (j + 1) := by
  rw [Nat.mul_assoc, ← Nat.pow_succ']

theorem insertEach_capacity (xs : List (List Byte)) : ∀ (l : ArrayList), WellFormed l →
    0 < l.capacity → l.size ≤ l.capacity → GrowthFits l (l.size + xs.length) →
    ∃ m : Nat, (insertEach l xs).capacity = l.capacity * 2 ^ m ∧
      l.size + xs.length ≤ l.capacity * 2 ^ m ∧
      ∀ j : Nat, j < m → l.capacity * 2 ^ j < l.size + xs.length := by
  induction xs with
  | nil =>
    intro l _ _ hs _
    exact ⟨0, by simp [insertEach], by simpa using hs, by intro j hj; omega⟩
  | cons x xs ih =>
    intro l hw hpos hs hfit
    have hlen : l.size + (x :: xs).length = l.size + 1 + xs.length := by
      simp only [List.length_cons]; omega
    have hg : l.size = l.capacity → true = true ∧ Doubles l := by
      intro hf
      exact ⟨rfl, hfit.doubles (by rw [hlen]; omega)⟩
    obtain ⟨-, h2, h3, h4, h5, h6, -, -, -⟩ := arr_insert_spec l x true hw hpos hs hg
    have hpos2 : 0 < (arr_insert l x true).2.capacity := by
      rw [h4]; split <;> omega
    by_cases hf : l.size = l.capacity
    · rw [if_pos hf] at h4
      have hfit2 : GrowthFits (arr_insert l x true).2
          ((arr_insert l x true).2.size + xs.length) := by
        rw [h2, ← hlen]
        exact hfit.of_doubled h4 h3
      obtain ⟨m, e1, e2, e3⟩ := ih (arr_insert l x true).2 h5 hpos2 h6 hfit2
      rw [h4, mul_two_pow_succ] at e1
      rw [h4, h2, mul_two_pow_succ, ← hlen] at e2
      refine ⟨m + 1, e1, e2, ?_⟩
      intro j hj
      cases j with
      | zero => rw [Nat.pow_zero, Nat.mul_one, hlen]; omega
      | succ j =>
        have := e3 j (by omega)
        rwa [h4, h2, mul_two_pow_succ, ← hlen] at this
    · rw [if_neg hf] at h4
      have hfit2 : GrowthFits (arr_insert l x true).2
          ((arr_insert l x true).2.size + xs.length) := by
        rw [h2, ← hlen]
        exact hfit.of_capacity h4 h3
      obtain ⟨m, e1, e2, e3⟩ := ih (arr_insert l x true).2 h5 hpos2 h6 hfit2
      rw [h4] at e1
      rw [h4, h2, ← hlen] at e2
      refine ⟨m, e1, e2, ?_⟩
      intro j hj
      have := e3 j hj
      rwa [h4, h2, ← hlen] at this

theorem first_doubling_unique (c n m1 m2 : Nat)
    (h1 : n ≤ c * 2 ^ m1) (h1m : ∀ j : Nat, j < m1 → c * 2 ^ j < n)
    (h2 : n ≤ c * 2 ^ m2) (h2m : ∀ j : Nat, j < m2 → c * 2 ^ j < n) : m1 = m2 := by
  rcases Nat.lt_trichotomy m1 m2 with h | h | h
  · have := h2m m1 h; omega
  · exact h
  · have := h1m m2 h; omega

/-! ## The claims -/

/-- C1 (failing input): after `arr_init` for one-byte elements and ten
insertions the list is full; an eleventh `arr_insert` whose `realloc` fails
returns 0 and leaves a reachable list of size 11 and capacity 10, in a block
of 10 bytes. -/
theorem C1_failed_growth_breaks_invariant :
    Reachable (arr_insert (insertEach (arr_init 1 true)
        [[1], [2], [3], [4], [5], [6], [7], [8], [9], [10]]) [11] false).2 ∧
      (arr_insert (insertEach (arr_init 1 true)
        [[1], [2], [3], [4], [5], [6], [7], [8], [9], [10]]) [11] false).1 = 0 ∧
      (arr_insert (insertEach (arr_init 1 true)
        [[1], [2], [3], [4], [5], [6], [7], [8], [9], [10]]) [11] false).2.size = 11 ∧
      (arr_insert (insertEach (arr_init 1 true)
        [[1], [2], [3], [4], [5], [6], [7], [8], [9], [10]]) [11] false).2.capacity = 10 ∧
      (arr_insert (insertEach (arr_init 1 true)
        [[1], [2], [3], [4], [5], [6], [7], [8], [9], [10]]) [11] false).2.data.length = 10 :=
  ⟨Reachable.insert _ _ _ (reachable_insertEach _ _ (Reachable.init 1 true (by decide))),
    by decide, by decide, by decide, by decide⟩

/-- C2: `arr_delete` at a valid index returns 0, takes one off the size,
keeps the capacity, keeps every element below the index, moves every element
above it one slot down: the content is the old content with the element at
the index erased. -/
theorem C2_arr_delete_erases (l : ArrayList) (i : Int) (hw : WellFormed l)
    (hs : l.size ≤ l.capacity) (h0 : 0 ≤ i) (h1 : i < (l.size : Int)) :
    (arr_delete l i).1 = 0 ∧ (arr_delete l i).2.size + 1 = l.size ∧
      (arr_delete l i).2.capacity = l.capacity ∧
      (∀ j : Nat, (j : Int) < i → current (arr_delete l i).2 j = current l j) ∧
      (∀ j : Nat, i < (j : Int) → j < l.size → current (arr_delete l i).2 (j - 1) = current l j) ∧
      toList (arr_delete l i).2 = (toList l).eraseIdx i.toNat := by
  have hn : i.toNat < l.size := by omega
  rw [arr_delete_eq l i hw hs h0 h1]
  refine ⟨rfl, ?_, rfl, ?_, ?_, toList_deleted l _ hw hs hn⟩
  · show l.size - 1 + 1 = l.size; omega
  · intro j hj
    exact current_deleted_lt l _ j hw hs hn (by omega)
  · intro j hj hj2
    have := current_deleted_ge l i.toNat (j - 1) hw hs hn (by omega) (by omega)
    rwa [show j - 1 + 1 = j by omega] at this

/-- C2 at `[10, 20, 30]`: `delete(1)` gives size 2 and `get(1) == 30`. -/
theorem C2_arr_delete_erases_witness :
    (arr_delete list123 1).1 = 0 ∧ (arr_delete list123 1).2.size = 2 ∧
      (arr_delete list123 1).2.capacity = 10 ∧
      arr_get (arr_delete list123 1).2 0 = some [10, 0, 0, 0] ∧
      arr_get (arr_delete list123 1).2 1 = some [30, 0, 0, 0] ∧
      toList (arr_delete list123 1).2 = [[10, 0, 0, 0], [30, 0, 0, 0]] := by
  have h := C2_arr_delete_erases list123 1 (by decide) (by decide) (by decide) (by decide)
  refine ⟨h.1, by decide, h.2.2.1, by decide, by decide, h.2.2.2.2.2.trans (by decide)⟩

/-- C3 (failing input): on a well-formed list of `INT_MAX` one-byte elements
with room, `arr_insert(v)` returns 0, makes the size `2^31` and stores `v` in
slot `INT_MAX`; `arr_set` and `arr_delete` accept the index `INT_MAX` on the
new list, and `arr_get(INT_MAX)` returns `NULL`, not `v`: the cast
`(int)arrayList->size` of `arr_get` is negative there. -/
theorem C3_get_after_insert_is_null :
    WellFormed listIntMax ∧ listIntMax.size < listIntMax.capacity ∧
      (arr_insert listIntMax [7] true).1 = 0 ∧
      (arr_insert listIntMax [7] true).2.size = listIntMax.size + 1 ∧
      current (arr_insert listIntMax [7] true).2 listIntMax.size = [7] ∧
      (arr_set (arr_insert listIntMax [7] true).2 2147483647 [7]).1 = 0 ∧
      (arr_delete (arr_insert listIntMax [7] true).2 2147483647).1 = 0 ∧
      arr_get (arr_insert listIntMax [7] true).2 2147483647 = none := by
  have hw := listIntMax_wellFormed.1
  have hs := listIntMax_wellFormed.2
  have hlt : (2147483647 : Int) < (((inserted listIntMax [7]).size : Nat) : Int) := by
    show (2147483647 : Int) < ((2147483647 + 1 : Nat) : Int)
    decide
  rw [arr_insert_room listIntMax [7] true hw hs]
  refine ⟨hw, hs, rfl, rfl, current_inserted_same listIntMax [7] hw hs rfl,
    arr_set_fst_valid _ _ _ (by decide) hlt, arr_delete_fst_valid _ _ (by decide) hlt, ?_⟩
  unfold arr_get
  rw [if_pos]
  right
  show (2147483647 : Int) ≥ toInt 2147483648
  decide

/-- C4: an `arr_insert` on a full list with capacity above 0, growth
succeeding, makes the capacity twice the old one and keeps every prior
element in its slot; an `arr_insert` on a list with room leaves the capacity
and the block as they are. -/
theorem C4_growth_doubles_only_when_full (l : ArrayList) (v : List Byte) (ok : Bool)
    (hw : WellFormed l) (hs : l.size ≤ l.capacity) :
    (l.size = l.capacity → 0 < l.capacity → ok = true → Doubles l →
        (arr_insert l v ok).2.capacity = 2 * l.capacity ∧
          (∀ j : Nat, j < l.size → current (arr_insert l v ok).2 j = current l j) ∧
          (toList (arr_insert l v ok).2).take l.size = toList l) ∧
      (l.size < l.capacity →
        (arr_insert l v ok).2.capacity = l.capacity ∧
          (arr_insert l v ok).2.data.length = l.data.length) := by
  constructor
  · intro hf hpos hok hd
    obtain ⟨-, h2, -, h4, -, -, h7, -, -⟩ := arr_insert_spec l v ok hw hpos hs (fun _ => ⟨hok, hd⟩)
    refine ⟨?_, h7, toList_take_of_current l _ (by rw [h2]; omega) h7⟩
    rw [h4, if_pos hf]; omega
  · intro hlt
    rw [arr_insert_room l v ok hw hlt]
    exact ⟨rfl, length_store _ _ _⟩

/-- C4 at a full list of ten elements (capacity 10 becomes 20) and at
`[10, 20, 30]` (capacity 10 stays 10). -/
theorem C4_growth_doubles_only_when_full_witness :
    ((arr_insert listFull [11] true).2.capacity = 2 * 10 ∧
        (toList (arr_insert listFull [11] true).2).take 10 = toList listFull) ∧
      ((arr_insert list123 [40, 0, 0, 0] true).2.capacity = 10 ∧
        (arr_insert list123 [40, 0, 0, 0] true).2.data.length = 40) := by
  have h1 := (C4_growth_doubles_only_when_full listFull [11] true (by decide) (by decide)).1
    (by decide) (by decide) rfl (by decide)
  have h2 := (C4_growth_doubles_only_when_full list123 [40, 0, 0, 0] true (by decide)
    (by decide)).2 (by decide)
  exact ⟨⟨h1.1, h1.2.2⟩, h2⟩

/-- C5: an index outside `[0, size)` makes `arr_delete` and `arr_set` return
`-1` with the list exactly as before, and `arr_get` return `NULL`. -/
theorem C5_invalid_index_rejected (l : ArrayList) (i : Int) (v : List Byte) (hi : IsInt i)
    (h : i < 0 ∨ (l.size : Int) ≤ i) :
    arr_delete l i = (-1, l) ∧ arr_set l i v = (-1, l) ∧ arr_get l i = none :=
  ⟨arr_delete_invalid l i hi h, arr_set_invalid l i v hi h, arr_get_none l i hi h⟩

/-- C5 at `[10, 20, 30]` with the indices 3 and -1. -/
theorem C5_invalid_index_rejected_witness :
    (arr_delete list123 3 = (-1, list123) ∧ arr_set list123 3 [7, 0, 0, 0] = (-1, list123) ∧
        arr_get list123 3 = none) ∧
      (arr_delete list123 (-1) = (-1, list123) ∧
        arr_set list123 (-1) [7, 0, 0, 0] = (-1, list123) ∧ arr_get list123 (-1) = none) :=
  ⟨C5_invalid_index_rejected list123 3 [7, 0, 0, 0] (by decide) (by decide),
    C5_invalid_index_rejected list123 (-1) [7, 0, 0, 0] (by decide) (by decide)⟩

/-- C6 (failing input): on a well-formed list of `2^31` one-byte elements
`arr_set(0, v)` returns 0 and stores `v` in slot 0, and the `arr_get(0)` that
follows returns `NULL`, not `v`: the cast `(int)arrayList->size` of `arr_get`
is negative there. -/
theorem C6_get_after_set_is_null :
    WellFormed list2G ∧ list2G.size ≤ list2G.capacity ∧ (arr_set list2G 0 [7]).1 = 0 ∧
      current (arr_set list2G 0 [7]).2 0 = [7] ∧ arr_get (arr_set list2G 0 [7]).2 0 = none := by
  have h : arr_set list2G 0 [7] = (0, { list2G with data := store list2G.data 0 [7] }) := by
    unfold arr_set
    rw [if_neg (by decide)]
    rfl
  rw [h]
  refine ⟨list2G_wellFormed.1, list2G_wellFormed.2, rfl, ?_, ?_⟩
  · exact current_store_same list2G 0 [7] list2G_wellFormed.1
      (show 0 < 2684354560 by decide) rfl
  · unfold arr_get
    rw [if_pos]
    right
    show (0 : Int) ≥ toInt 2147483648
    decide

/-- C7: `arr_set` at a valid index leaves size, capacity, element width and
the length of the block as they were (no growth), and leaves every other
element unchanged. -/
theorem C7_arr_set_frame (l : ArrayList) (i : Int) (v : List Byte) (hw : WellFormed l)
    (hs : l.size ≤ l.capacity) (h0 : 0 ≤ i) (h1 : i < (l.size : Int)) :
    (arr_set l i v).2.size = l.size ∧ (arr_set l i v).2.capacity = l.capacity ∧
      (arr_set l i v).2.dataTypeSize = l.dataTypeSize ∧
      (arr_set l i v).2.data.length = l.data.length ∧
      ∀ j : Nat, j < l.size → (j : Int) ≠ i → current (arr_set l i v).2 j = current l j := by
  rw [arr_set_eq l i v hw hs h0 h1]
  refine ⟨rfl, rfl, rfl, length_store _ _ _, ?_⟩
  intro j hj hne
  have hn : i.toNat < l.capacity := by omega
  exact current_store_other l i.toNat j _ hw hn (by omega) (by omega)
    (by rw [List.length_take]; omega)

/-- C7 at `[10, 20, 30]` with `set(1, 7)`. -/
theorem C7_arr_set_frame_witness :
    (arr_set list123 1 [7, 0, 0, 0]).2.size = 3 ∧ (arr_set list123 1 [7, 0, 0, 0]).2.capacity = 10 ∧
      (arr_set list123 1 [7, 0, 0, 0]).2.dataTypeSize = 4 ∧
      (arr_set list123 1 [7, 0, 0, 0]).2.data.length = 40 ∧
      ∀ j : Nat, j < 3 → (j : Int) ≠ 1 →
        current (arr_set list123 1 [7, 0, 0, 0]).2 j = current list123 j :=
  C7_arr_set_frame list123 1 [7, 0, 0, 0] (by decide) (by decide) (by decide) (by decide)

/-- C8: on a list with `size ≤ capacity` and `0 < capacity`, every growth
attempt succeeding (`realloc` returns a block, and the doubled slot and byte
counts are `size_t` values), `arr_insertAll` with a batch of `k ≥ 0` elements
returns 0 (with fuel 64 or more), the content is the old content followed by
the batch in its order, the size grows by `k`, and the capacity is the first
of `capacity, 2*capacity, 4*capacity, ...` that is at least `size + k`. -/
theorem C8_arr_insertAll_appends (l : ArrayList) (args : List (List Byte)) (oks : Nat → Bool)
    (fuel : Nat) (hw : WellFormed l) (hpos : 0 < l.capacity) (hs : l.size ≤ l.capacity)
    (hx : ∀ x ∈ args, x.length = l.dataTypeSize) (hoks : ∀ k, oks k = true)
    (hfit : GrowthFits l (l.size + args.length)) (hfuel : 64 ≤ fuel) :
    ∃ (l2 : ArrayList) (m : Nat),
      arr_insertAll l (args.length : Int) args oks fuel = some (0, l2) ∧
        toList l2 = toList l ++ args ∧ l2.size = l.size + args.length ∧
        l2.capacity = l.capacity * 2 ^ m ∧ l.size + args.length ≤ l.capacity * 2 ^ m ∧
        ∀ j : Nat, j < m → l.capacity * 2 ^ j < l.size + args.length := by
  obtain ⟨l2, m, h1, -, h3, -, h5, h6, h7, h8⟩ :=
    arr_insertAll_spec l args oks fuel hw hpos hs hx hoks hfit hfuel
  exact ⟨l2, m, h1, h8, h3, h5, h6, h7⟩

/-- C8 at `[10, 20, 30]` with a batch of eight elements: size 11, capacity
20. -/
theorem C8_arr_insertAll_appends_witness :
    (∃ (l2 : ArrayList) (m : Nat),
      arr_insertAll list123 ((List.replicate 8 [7, 0, 0, 0]).length : Int)
          (List.replicate 8 [7, 0, 0, 0]) (fun _ => true) 64 = some (0, l2) ∧
        toList l2 = toList list123 ++ List.replicate 8 [7, 0, 0, 0] ∧
        l2.size = list123.size + (List.replicate 8 [7, 0, 0, 0]).length ∧
        l2.capacity = list123.capacity * 2 ^ m ∧
        list123.size + (List.replicate 8 [7, 0, 0, 0]).length ≤ list123.capacity * 2 ^ m ∧
        ∀ j : Nat, j < m →
          list123.capacity * 2 ^ j < list123.size + (List.replicate 8 [7, 0, 0, 0]).length) ∧
      (arr_insertAll list123 8 (List.replicate 8 [7, 0, 0, 0]) (fun _ => true) 64).map
          (fun r => (r.1, r.2.size, r.2.capacity)) = some (0, 11, 20) :=
  ⟨C8_arr_insertAll_appends list123 (List.replicate 8 [7, 0, 0, 0]) (fun _ => true) 64
    (by decide) (by decide) (by decide) (by decide) (fun _ => rfl)
    (GrowthFits.of_fits (by decide)) (by decide),
    by decide⟩

/-- C9: `arr_deleteAll` with a batch of pairwise distinct indices, each in
`[0, size)`, returns 0 and leaves the elements whose index is not in the
batch, in their order; the size goes down by the length of the batch, and
every reordering of the batch gives the same list. -/
theorem C9_arr_deleteAll_removes_batch (l : ArrayList) (batch : List Int) (hw : WellFormed l)
    (hs : l.size ≤ l.capacity) (hnd : batch.Nodup)
    (hv : ∀ b ∈ batch, 0 ≤ b ∧ b < (l.size : Int)) :
    (arr_deleteAll l (batch.length : Int) batch).1 = 0 ∧
      toList (arr_deleteAll l (batch.length : Int) batch).2 = survivors (toList l) batch ∧
      (arr_deleteAll l (batch.length : Int) batch).2.size + batch.length = l.size ∧
      ∀ batch2 : List Int, batch2.Perm batch →
        arr_deleteAll l (batch2.length : Int) batch2 = arr_deleteAll l (batch.length : Int) batch := by
  obtain ⟨p, s⟩ := sortOuter_sorted batch
  have s2 := sorted_gt_of_nodup _ s ((p.nodup_iff).mpr hnd)
  obtain ⟨-, i2, -, -, i5⟩ := deleteAll_apply_spec _ l hw hs s2
    (fun b hb => hv b ((p.mem_iff).mp hb))
  rw [arr_deleteAll_eq]
  refine ⟨rfl, ?_, ?_, ?_⟩
  · show toList (deleteAll_apply _ l) = _
    rw [i5]
    unfold survivors
    congr 2
    funext q
    exact decide_eq_decide.mpr (not_congr p.mem_iff)
  · show (deleteAll_apply _ l).size + _ = _
    rw [← i2, p.length_eq]
  · intro batch2 hp
    rw [arr_deleteAll_eq, sortOuter_perm_eq batch2 batch hp]

/-- C9 at `[10, 20, 30]`: the batches `{0, 2}` and `{2, 0}` both leave
`[20]`. -/
theorem C9_arr_deleteAll_removes_batch_witness :
    ((arr_deleteAll list123 (([0, 2] : List Int).length : Int) [0, 2]).1 = 0 ∧
      toList (arr_deleteAll list123 (([0, 2] : List Int).length : Int) [0, 2]).2
        = survivors (toList list123) [0, 2] ∧
      (arr_deleteAll list123 (([0, 2] : List Int).length : Int) [0, 2]).2.size
        + ([0, 2] : List Int).length = list123.size ∧
      ∀ batch2 : List Int, batch2.Perm [0, 2] →
        arr_deleteAll list123 (batch2.length : Int) batch2
          = arr_deleteAll list123 (([0, 2] : List Int).length : Int) [0, 2]) ∧
    toList (arr_deleteAll list123 2 [0, 2]).2 = [[20, 0, 0, 0]] ∧
    toList (arr_deleteAll list123 2 [2, 0]).2 = [[20, 0, 0, 0]] :=
  ⟨C9_arr_deleteAll_removes_batch list123 [0, 2] (by decide) (by decide) (by decide) (by decide),
    by decide, by decide⟩

/-- C10 (as stated, refuted): with the only matching element at index `2^31`
`arr_getIndexOf` returns `-2147483648`, not that index; with the only
matching element at index `2^32 - 1` it returns `-1` although an element
matches. -/
theorem C10_index_of_wraps :
    (WellFormed (listOneAt 2147483648 2684354560) ∧
        (listOneAt 2147483648 2684354560).size ≤ (listOneAt 2147483648 2684354560).capacity ∧
        EqualAt (listOneAt 2147483648 2684354560) [1] none 2147483648 ∧
        arr_getIndexOf (listOneAt 2147483648 2684354560) [1] none = -2147483648) ∧
      (WellFormed (listOneAt 4294967295 5368709120) ∧
        (listOneAt 4294967295 5368709120).size ≤ (listOneAt 4294967295 5368709120).capacity ∧
        EqualAt (listOneAt 4294967295 5368709120) [1] none 4294967295 ∧
        arr_getIndexOf (listOneAt 4294967295 5368709120) [1] none = -1) := by
  have h1 := arr_getIndexOf_listOneAt 2147483648 2684354560 (by decide) (by decide)
  have h2 := arr_getIndexOf_listOneAt 4294967295 5368709120 (by decide) (by decide)
  refine ⟨⟨listOneAt_wellFormed _ _ (by decide) (by decide),
      (show 2147483648 + 1 ≤ 2684354560 by decide), h1.1, h1.2.trans (by decide)⟩,
    listOneAt_wellFormed _ _ (by decide) (by decide),
    (show 4294967295 + 1 ≤ 5368709120 by decide), h2.1, h2.2.trans (by decide)⟩

/-- C10 (amended): on a list of at most `2^31` elements (every index an `int`
value) `arr_getIndexOf` returns the least index below the size at which the
comparator reports equality of element and target, the caller's predicate
alone when there is one and equality of all bytes of the element otherwise,
and it returns `-1` exactly when no element matches. -/
theorem C10_arr_getIndexOf_first_match (l : ArrayList) (data : List Byte) (cmpField : Comparator)
    (hw : WellFormed l) (hs : l.size ≤ l.capacity) (hd : data.length = l.dataTypeSize)
    (hint : (l.size : Int) ≤ INT_MAX + 1) :
    ((arr_getIndexOf l data cmpField = -1 ∧ ∀ k : Nat, k < l.size → ¬ EqualAt l data cmpField k) ∨
      ∃ k : Nat, k < l.size ∧ arr_getIndexOf l data cmpField = (k : Int) ∧
        EqualAt l data cmpField k ∧ ∀ j : Nat, j < k → ¬ EqualAt l data cmpField j) ∧
    (arr_getIndexOf l data cmpField = -1 ↔ ∀ k : Nat, k < l.size → ¬ EqualAt l data cmpField k) := by
  have hiff : ∀ k : Nat, k < l.size →
      (genericComparator (current l k) data l.dataTypeSize cmpField = 0 ↔ EqualAt l data cmpField k) :=
    fun k hk => genericComparator_eq_zero_iff l data cmpField k hw (by omega) hd
  have hcases : (arr_getIndexOf l data cmpField = -1 ∧
      ∀ k : Nat, k < l.size → ¬ EqualAt l data cmpField k) ∨
      ∃ k : Nat, k < l.size ∧ arr_getIndexOf l data cmpField = (k : Int) ∧
        EqualAt l data cmpField k ∧ ∀ j : Nat, j < k → ¬ EqualAt l data cmpField j := by
    rcases getIndexOf_loop_spec l data cmpField l.size 0 with ⟨h1, h2⟩ | ⟨k, -, h2, h3, h4, h5⟩
    · left
      refine ⟨h1, ?_⟩
      intro k hk hE
      exact h2 k (Nat.zero_le _) (by omega) ((hiff k hk).mpr hE)
    · right
      have hk : k < l.size := by omega
      refine ⟨k, hk, ?_, (hiff k hk).mp h3, ?_⟩
      · show getIndexOf_loop l data cmpField l.size 0 = _
        rw [h5]
        exact toInt_of_le (by unfold INT_MAX at hint ⊢; omega)
      · intro j hj hE
        exact h4 j (Nat.zero_le _) hj ((hiff j (by omega)).mpr hE)
  refine ⟨hcases, ?_⟩
  rcases hcases with ⟨h1, h2⟩ | ⟨k, h1, h2, h3, -⟩
  · exact ⟨fun _ => h2, fun _ => h1⟩
  · constructor
    · intro h; rw [h2] at h; omega
    · intro h; exact absurd h3 (h k h1)

/-- C10 at `[10, 20, 30]`: without a predicate 20 is found at index 1 and 99
is not found; a target that agrees with 20 in its first byte only is not
found without a predicate and is found at index 1 by a predicate that
compares first bytes. -/
theorem C10_arr_getIndexOf_first_match_witness :
    (((arr_getIndexOf list123 [20, 0, 0, 0] none = -1 ∧
          ∀ k : Nat, k < list123.size → ¬ EqualAt list123 [20, 0, 0, 0] none k) ∨
        ∃ k : Nat, k < list123.size ∧ arr_getIndexOf list123 [20, 0, 0, 0] none = (k : Int) ∧
          EqualAt list123 [20, 0, 0, 0] none k ∧
          ∀ j : Nat, j < k → ¬ EqualAt list123 [20, 0, 0, 0] none j) ∧
      (arr_getIndexOf list123 [20, 0, 0, 0] none = -1 ↔
        ∀ k : Nat, k < list123.size → ¬ EqualAt list123 [20, 0, 0, 0] none k)) ∧
    arr_getIndexOf list123 [20, 0, 0, 0] none = 1 ∧
    arr_getIndexOf list123 [99, 0, 0, 0] none = -1 ∧
    arr_getIndexOf list123 [20, 9, 9, 9] none = -1 ∧
    arr_getIndexOf list123 [20, 9, 9, 9]
      (some (fun a b => (a.headD 0 : Int) - (b.headD 0 : Int))) = 1 :=
  ⟨C10_arr_getIndexOf_first_match list123 [20, 0, 0, 0] none (by decide) (by decide) (by decide)
    (by decide), by decide, by decide, by decide, by decide⟩

/-- C12 (as stated, refuted): on `[10, 20, 30]` the not-found result of
`arr_getIndexOf` is `-1`, the value that `arr_delete` and `arr_set` return for
the invalid index 7. -/
theorem C12_not_found_is_invalid_index :
    arr_getIndexOf list123 [99, 0, 0, 0] none = -1 ∧
      (arr_delete list123 7).1 = -1 ∧ (arr_set list123 7 [1, 0, 0, 0]).1 = -1 ∧
      arr_getIndexOf list123 [99, 0, 0, 0] none = (arr_delete list123 7).1 := by
  decide

/-- C12 (amended): when no element matches, `arr_getIndexOf` returns `-1`, a
value that is no index but is the value `arr_delete` and `arr_set` return for
an invalid index; the status codes are three different values: 0 for success,
`-1` for an invalid index, and 1 for the not-found outcome of
`arr_deleteFirst`. -/
theorem C12_status_codes (l : ArrayList) (data v : List Byte) (cmpField : Comparator)
    (i j : Int) (hi : IsInt i) (hinv : i < 0 ∨ (l.size : Int) ≤ i)
    (h0 : 0 ≤ j) (h1 : j < (l.size : Int))
    (hno : ∀ k : Nat, k < l.size →
      ¬ genericComparator (current l k) data l.dataTypeSize cmpField = 0) :
    (arr_getIndexOf l data cmpField = -1 ∧ ∀ k : Nat, arr_getIndexOf l data cmpField ≠ (k : Int)) ∧
      (arr_delete l i).1 = -1 ∧ (arr_set l i v).1 = -1 ∧
      arr_getIndexOf l data cmpField = (arr_delete l i).1 ∧
      (arr_deleteFirst l data cmpField).1 = 1 ∧
      (arr_delete l j).1 = 0 ∧ (arr_set l j v).1 = 0 ∧
      (arr_delete l j).1 ≠ (arr_delete l i).1 ∧
      (arr_delete l j).1 ≠ (arr_deleteFirst l data cmpField).1 ∧
      (arr_delete l i).1 ≠ (arr_deleteFirst l data cmpField).1 := by
  have hdel : (arr_delete l i).1 = -1 := by rw [arr_delete_invalid l i hi hinv]
  have hset : (arr_set l i v).1 = -1 := by rw [arr_set_invalid l i v hi hinv]
  have hd0 := arr_delete_fst_valid l j h0 h1
  have hs0 := arr_set_fst_valid l j v h0 h1
  rcases deleteFirst_loop_spec l data cmpField l.size 0 with
    ⟨e1, e2, -⟩ | ⟨k, -, hk, h3, -, -, -⟩
  · have e3 : arr_getIndexOf l data cmpField = -1 := e2
    have e4 : (arr_deleteFirst l data cmpField).1 = 1 := by
      show (deleteFirst_loop l data cmpField l.size 0).1 = 1
      rw [e1]
    rw [hdel, hset, hd0, hs0, e3, e4]
    refine ⟨⟨rfl, fun k => by omega⟩, rfl, rfl, rfl, rfl, rfl, rfl, by decide, by decide,
      by decide⟩
  · exact absurd h3 (hno k (by omega))

/-- C12 at `[10, 20, 30]`: the target 99, the invalid index 7 and the valid
index 1. -/
theorem C12_status_codes_witness :
    (arr_getIndexOf list123 [99, 0, 0, 0] none = -1 ∧
        ∀ k : Nat, arr_getIndexOf list123 [99, 0, 0, 0] none ≠ (k : Int)) ∧
      (arr_delete list123 7).1 = -1 ∧ (arr_set list123 7 [1, 0, 0, 0]).1 = -1 ∧
      arr_getIndexOf list123 [99, 0, 0, 0] none = (arr_delete list123 7).1 ∧
      (arr_deleteFirst list123 [99, 0, 0, 0] none).1 = 1 ∧
      (arr_delete list123 1).1 = 0 ∧ (arr_set list123 1 [1, 0, 0, 0]).1 = 0 ∧
      (arr_delete list123 1).1 ≠ (arr_delete list123 7).1 ∧
      (arr_delete list123 1).1 ≠ (arr_deleteFirst list123 [99, 0, 0, 0] none).1 ∧
      (arr_delete list123 7).1 ≠ (arr_deleteFirst list123 [99, 0, 0, 0] none).1 :=
  C12_status_codes list123 [99, 0, 0, 0] [1, 0, 0, 0] none 7 1 (by decide) (by decide)
    (by decide) (by decide) (by decide)

/-- C13 (as stated, refuted): after `arr_init` and eleven insertions the
reachable list has capacity 20, and `arr_clear` leaves it with capacity 10. -/
theorem C13_clear_shrinks_capacity :
    Reachable (insertEach (arr_init 1 true)
        [[1], [2], [3], [4], [5], [6], [7], [8], [9], [10], [11]]) ∧
      (insertEach (arr_init 1 true)
        [[1], [2], [3], [4], [5], [6], [7], [8], [9], [10], [11]]).capacity = 20 ∧
      (arr_clear (insertEach (arr_init 1 true)
        [[1], [2], [3], [4], [5], [6], [7], [8], [9], [10], [11]]) true).1 = 0 ∧
      (arr_clear (insertEach (arr_init 1 true)
        [[1], [2], [3], [4], [5], [6], [7], [8], [9], [10], [11]]) true).2.capacity = 10 :=
  ⟨reachable_insertEach _ _ (Reachable.init 1 true (by decide)), by decide, by decide, by decide⟩

/-- C13 (amended): the capacity is 10 after `arr_init` and again after
`arr_clear`; for every list and every other public operation (insert,
insertAll, delete, deleteAll, deleteFirst, set, resize) the capacity after the
operation is at least the capacity before it, as long as no doubling that is
made leaves the range of `size_t`. -/
theorem C13_capacity_grows_except_clear (l : ArrayList) :
    (∀ (d : Nat) (ok : Bool), (arr_init d ok).capacity = 10) ∧
      (∀ (v : List Byte) (ok : Bool),
        (l.size = l.capacity → ok = true → l.capacity * 2 < SIZE_MOD) →
        l.capacity ≤ (arr_insert l v ok).2.capacity) ∧
      (∀ (count : Int) (args : List (List Byte)) (oks : Nat → Bool) (fuel : Nat)
        (r : Int × ArrayList), GrowthFits l (wrap (l.size + toSizeT count)) →
        arr_insertAll l count args oks fuel = some r → l.capacity ≤ r.2.capacity) ∧
      (∀ i : Int, (arr_delete l i).2.capacity = l.capacity) ∧
      (∀ (count : Int) (args : List Int), (arr_deleteAll l count args).2.capacity = l.capacity) ∧
      (∀ (data : List Byte) (cmpField : Comparator),
        (arr_deleteFirst l data cmpField).2.capacity = l.capacity) ∧
      (∀ (i : Int) (v : List Byte), (arr_set l i v).2.capacity = l.capacity) ∧
      (∀ ok : Bool, (ok = true → l.capacity * 2 < SIZE_MOD) →
        l.capacity ≤ (arr_resize l ok).capacity) ∧
      (∀ ok : Bool, (arr_clear l ok).2.capacity = 10) := by
  refine ⟨fun _ _ => rfl, fun v ok h => capacity_arr_insert l v ok h,
    fun count args oks fuel r hfit h => capacity_arr_insertAll l count args oks fuel r hfit h,
    capacity_arr_delete l, fun count args => capacity_deleteAll_apply _ l,
    fun data cmpField => capacity_deleteFirst_loop l data cmpField l.size 0,
    capacity_arr_set l, fun ok h => capacity_arr_resize l ok h, ?_⟩
  intro ok
  cases ok <;> rfl

/-- C13 at a full list of ten elements: an insertion with its growth and a
batch insertion take the capacity from 10 to 20, a resize too, a deletion
keeps it. -/
theorem C13_capacity_grows_except_clear_witness :
    listFull.capacity ≤ (arr_insert listFull [11] true).2.capacity ∧
      (arr_insert listFull [11] true).2.capacity = 20 ∧
      (∀ r : Int × ArrayList, arr_insertAll listFull 1 [[11]] (fun _ => true) 64 = some r →
        listFull.capacity ≤ r.2.capacity) ∧
      (arr_insertAll listFull 1 [[11]] (fun _ => true) 64).map (fun r => r.2.capacity) = some 20 ∧
      listFull.capacity ≤ (arr_resize listFull true).capacity ∧
      (arr_delete listFull 3).2.capacity = listFull.capacity := by
  have h := C13_capacity_grows_except_clear listFull
  exact ⟨h.2.1 [11] true (fun _ _ => by decide), by decide,
    fun r hr => h.2.2.1 1 [[11]] (fun _ => true) 64 r
      (@GrowthFits.of_fits listFull _ (by decide)) hr,
    by decide, h.2.2.2.2.2.2.2.1 true (fun _ => by decide), h.2.2.2.1 3⟩

/-- C14: with its allocation succeeding, `arr_clear` returns 0 and leaves the
list that `arr_init` gives for the same element width: size 0, capacity 10;
an `arr_insert(v)` on it returns 0 and gives size 1 with `arr_get(0)` the
bytes of `v`; a second `arr_clear` gives what the first gave. -/
theorem C14_arr_clear_resets (l : ArrayList) (v : List Byte) (ok : Bool)
    (hfit : Fits INIT_CAPACITY l.dataTypeSize) (hv : v.length = l.dataTypeSize) :
    arr_clear l true = (0, arr_init l.dataTypeSize true) ∧
      arr_size (arr_clear l true).2 = 0 ∧ arr_capacity (arr_clear l true).2 = 10 ∧
      (arr_clear l true).2.dataTypeSize = l.dataTypeSize ∧
      (arr_insert (arr_clear l true).2 v ok).1 = 0 ∧
      arr_size (arr_insert (arr_clear l true).2 v ok).2 = 1 ∧
      arr_get (arr_insert (arr_clear l true).2 v ok).2 0 = some v ∧
      arr_clear (arr_clear l true).2 true = arr_clear l true := by
  have hd : l.dataTypeSize < SIZE_MOD := by
    have := hfit.2
    unfold INIT_CAPACITY at this
    omega
  have hw := wellFormed_arr_init l.dataTypeSize hfit hd
  have hc : arr_clear l true = (0, arr_init l.dataTypeSize true) := rfl
  rw [hc]
  obtain ⟨h1, h2, -, -, -, -, -, h8, -⟩ := arr_insert_spec (arr_init l.dataTypeSize true) v ok hw
    (show 0 < 10 by omega) (show 0 ≤ 10 by omega)
    (fun h => absurd (show (0 : Nat) = 10 from h) (by decide))
  refine ⟨rfl, rfl, rfl, rfl, h1, h2, ?_, rfl⟩
  have h3 := arr_get_eq (arr_insert (arr_init l.dataTypeSize true) v ok).2 0 (Int.le_refl _)
    (by rw [h2]; show (0 : Int) < ((0 + 1 : Nat) : Int); decide)
    (by rw [h2]; show (((0 + 1 : Nat)) : Int) ≤ INT_MAX; decide)
  rw [h3]
  exact congrArg some (h8 hv)

/-- C14 at `[10, 20, 30]`: cleared, then 7 inserted. -/
theorem C14_arr_clear_resets_witness :
    arr_clear list123 true = (0, arr_init list123.dataTypeSize true) ∧
      arr_size (arr_clear list123 true).2 = 0 ∧ arr_capacity (arr_clear list123 true).2 = 10 ∧
      (arr_clear list123 true).2.dataTypeSize = list123.dataTypeSize ∧
      (arr_insert (arr_clear list123 true).2 [7, 0, 0, 0] true).1 = 0 ∧
      arr_size (arr_insert (arr_clear list123 true).2 [7, 0, 0, 0] true).2 = 1 ∧
      arr_get (arr_insert (arr_clear list123 true).2 [7, 0, 0, 0] true).2 0 = some [7, 0, 0, 0] ∧
      arr_clear (arr_clear list123 true).2 true = arr_clear list123 true :=
  C14_arr_clear_resets list123 [7, 0, 0, 0] true (by decide) (by decide)

/-- C15 (failing input): on a full list of ten one-byte elements, with the
`realloc` of `arr_resize` failing, `arr_insert` returns 0 and leaves size 11
and capacity 10; the copy went to offset 10 of a block of 10 bytes, which is
as it was. -/
theorem C15_failed_growth_reported_as_success :
    listFull.size = listFull.capacity ∧ arr_resize listFull false = listFull ∧
      (arr_insert listFull [11] false).1 = 0 ∧
      (arr_insert listFull [11] false).2.size = 11 ∧
      (arr_insert listFull [11] false).2.capacity = 10 ∧
      wrap (listFull.size * listFull.dataTypeSize) = listFull.data.length ∧
      (arr_insert listFull [11] false).2.data = listFull.data := by
  decide

/-- C16 (failing inputs): the `while` loop of `arr_insertAll` does not end,
whatever the fuel, (1) on `[10, 20, 30]` with a batch of 8 when every
`realloc` fails, (2) on a list of capacity 0 with a batch of 1, whatever the
`realloc` outcomes, (3) on a fresh list with the batch count `-1`, whatever
the `realloc` outcomes. -/
theorem C16_growth_loop_does_not_end :
    (∀ fuel : Nat,
        arr_insertAll list123 8 (List.replicate 8 [7, 0, 0, 0]) (fun _ => false) fuel = none) ∧
      (∀ (fuel : Nat) (oks : Nat → Bool),
        arr_insertAll listNoSlot 1 [[7, 0, 0, 0]] oks fuel = none) ∧
      (∀ (fuel : Nat) (oks : Nat → Bool) (d : Nat) (ok : Bool),
        arr_insertAll (arr_init d ok) (-1) [] oks fuel = none) := by
  refine ⟨?_, ?_, ?_⟩
  · intro fuel
    exact arr_insertAll_none list123 8 _ _ (fun l => l = list123)
      (fun l k hl => by rw [hl]; rfl) (fun l hl => by rw [hl]; decide) rfl fuel
  · intro fuel oks
    exact arr_insertAll_none listNoSlot 1 _ oks (fun l => l = listNoSlot)
      (fun l k hl => by rw [hl]; exact arr_resize_listNoSlot _)
      (fun l hl => by rw [hl]; decide) rfl fuel
  · intro fuel oks d ok
    refine arr_insertAll_none (arr_init d ok) (-1) _ oks
      (fun l => l.size = 0 ∧ l.capacity % 2 = 0 ∧ l.capacity < SIZE_MOD)
      (fun l k hl => even_capacity_arr_resize l (oks k) hl) ?_ ⟨rfl, (show 10 % 2 = 0 by decide), (show 10 < SIZE_MOD by decide)⟩ fuel
    intro l hl
    obtain ⟨h1, h2, h3⟩ := hl
    rw [h1, show toSizeT (-1) = 18446744073709551615 by decide, Nat.zero_add,
      show wrap 18446744073709551615 = 18446744073709551615 by decide]
    unfold SIZE_MOD at h3
    show l.capacity < 18446744073709551615
    omega

/-- C17: `arr_deleteAll` returns 0 and leaves the list that it leaves for the
batch without its entries outside `[0, size)`; a batch with only such entries
leaves the list as it was. -/
theorem C17_arr_deleteAll_skips_invalid (l : ArrayList) (batch : List Int)
    (hint : ∀ b ∈ batch, IsInt b) :
    (arr_deleteAll l (batch.length : Int) batch).1 = 0 ∧
      arr_deleteAll l (batch.length : Int) batch
        = arr_deleteAll l ((validEntries l batch).length : Int) (validEntries l batch) ∧
      ((∀ b ∈ batch, b < 0 ∨ (l.size : Int) ≤ b) →
        arr_deleteAll l (batch.length : Int) batch = (0, l)) := by
  refine ⟨rfl, arr_deleteAll_validEntries l batch hint, ?_⟩
  intro hout
  have hnil : validEntries l batch = [] := by
    unfold validEntries
    rw [List.filter_eq_nil_iff]
    intro b hb
    have := hout b hb
    simp
    omega
  rw [arr_deleteAll_validEntries l batch hint, hnil]
  rfl

/-- C17 at `[10, 20, 30]`: the batch `{5, 0, -1, 2}` leaves `[20]`, as the
batch `{0, 2}` does; the batch `{7, -3}` leaves the list as it was. -/
theorem C17_arr_deleteAll_skips_invalid_witness :
    ((arr_deleteAll list123 (([5, 0, -1, 2] : List Int).length : Int) [5, 0, -1, 2]).1 = 0 ∧
      arr_deleteAll list123 (([5, 0, -1, 2] : List Int).length : Int) [5, 0, -1, 2]
        = arr_deleteAll list123 ((validEntries list123 [5, 0, -1, 2]).length : Int)
            (validEntries list123 [5, 0, -1, 2]) ∧
      ((∀ b ∈ ([5, 0, -1, 2] : List Int), b < 0 ∨ (list123.size : Int) ≤ b) →
        arr_deleteAll list123 (([5, 0, -1, 2] : List Int).length : Int) [5, 0, -1, 2]
          = (0, list123))) ∧
    validEntries list123 [5, 0, -1, 2] = [0, 2] ∧
    toList (arr_deleteAll list123 4 [5, 0, -1, 2]).2 = [[20, 0, 0, 0]] ∧
    arr_deleteAll list123 2 [7, -3] = (0, list123) :=
  ⟨C17_arr_deleteAll_skips_invalid list123 [5, 0, -1, 2] (by decide), by decide, by decide,
    ((C17_arr_deleteAll_skips_invalid list123 [7, -3] (by decide)).2.2 (by decide))⟩

/-- C18 (as stated, refuted): on `[10, 20, 30]` the batch `{1, 1}` leaves
`[10]`, the batch `{1}` leaves `[10, 30]`: the repeated index deletes the
element that was at index 2, which the batch does not name. -/
theorem C18_repeated_index_deletes_twice :
    toList (arr_deleteAll list123 2 [1, 1]).2 = [[10, 0, 0, 0]] ∧
      toList (arr_deleteAll list123 1 [1]).2 = [[10, 0, 0, 0], [30, 0, 0, 0]] ∧
      toList (arr_deleteAll list123 2 [1, 1]).2 ≠ toList (arr_deleteAll list123 1 [1]).2 := by
  decide

/-- C18 (amended): for a batch of pairwise distinct indices, in range or not,
`arr_deleteAll` removes the elements at the positions that the batch names
and no others, and the size goes down by the number of entries in range. -/
theorem C18_arr_deleteAll_removes_named (l : ArrayList) (batch : List Int) (hw : WellFormed l)
    (hs : l.size ≤ l.capacity) (hnd : batch.Nodup) (hint : ∀ b ∈ batch, IsInt b) :
    (arr_deleteAll l (batch.length : Int) batch).1 = 0 ∧
      toList (arr_deleteAll l (batch.length : Int) batch).2 = survivors (toList l) batch ∧
      (arr_deleteAll l (batch.length : Int) batch).2.size + (validEntries l batch).length
        = l.size :=
  ⟨rfl, (arr_deleteAll_nodup l batch hw hs hnd hint).1,
    (arr_deleteAll_nodup l batch hw hs hnd hint).2⟩

/-- C18 at `[10, 20, 30]` with the batch `{1, 5}`: `[10, 30]` is left. -/
theorem C18_arr_deleteAll_removes_named_witness :
    ((arr_deleteAll list123 (([1, 5] : List Int).length : Int) [1, 5]).1 = 0 ∧
      toList (arr_deleteAll list123 (([1, 5] : List Int).length : Int) [1, 5]).2
        = survivors (toList list123) [1, 5] ∧
      (arr_deleteAll list123 (([1, 5] : List Int).length : Int) [1, 5]).2.size
        + (validEntries list123 [1, 5]).length = list123.size) ∧
    survivors (toList list123) [1, 5] = [[10, 0, 0, 0], [30, 0, 0, 0]] :=
  ⟨C18_arr_deleteAll_removes_named list123 [1, 5] (by decide) (by decide) (by decide)
    (by decide), by decide⟩

/-- C19: on a list with `size ≤ capacity` and `0 < capacity`, growth
succeeding, `arr_insertAll` with a batch `e1 .. ek` returns 0 and leaves the
size, the elements in their order, the capacity and the element width that
the successive calls `arr_insert(e1)`, ..., `arr_insert(ek)` leave. -/
theorem C19_insertAll_is_successive_inserts (l : ArrayList) (args : List (List Byte))
    (oks : Nat → Bool) (fuel : Nat) (hw : WellFormed l) (hpos : 0 < l.capacity)
    (hs : l.size ≤ l.capacity) (hx : ∀ x ∈ args, x.length = l.dataTypeSize)
    (hoks : ∀ k, oks k = true) (hfit : GrowthFits l (l.size + args.length))
    (hfuel : 64 ≤ fuel) :
    ∃ l2 : ArrayList, arr_insertAll l (args.length : Int) args oks fuel = some (0, l2) ∧
      l2.size = (insertEach l args).size ∧ toList l2 = toList (insertEach l args) ∧
      l2.capacity = (insertEach l args).capacity ∧
      l2.dataTypeSize = (insertEach l args).dataTypeSize := by
  obtain ⟨l2, m, h1, -, h3, h4, h5, h6, h7, h8⟩ :=
    arr_insertAll_spec l args oks fuel hw hpos hs hx hoks hfit hfuel
  obtain ⟨-, i2, -, i4, i5⟩ := insertEach_spec args l hw hpos hs hx hfit
  obtain ⟨m2, e1, e2, e3⟩ := insertEach_capacity args l hw hpos hs hfit
  have hm := first_doubling_unique l.capacity (l.size + args.length) m m2 h6 h7 e2 e3
  exact ⟨l2, h1, by rw [h3, i2], by rw [h8, i5], by rw [h5, e1, hm], by rw [h4, i4]⟩

/-- C19 at `[10, 20, 30]` with a batch of eight elements: both ways give size
11 and capacity 20. -/
theorem C19_insertAll_is_successive_inserts_witness :
    (∃ l2 : ArrayList,
      arr_insertAll list123 ((List.replicate 8 [7, 0, 0, 0]).length : Int)
          (List.replicate 8 [7, 0, 0, 0]) (fun _ => true) 64 = some (0, l2) ∧
        l2.size = (insertEach list123 (List.replicate 8 [7, 0, 0, 0])).size ∧
        toList l2 = toList (insertEach list123 (List.replicate 8 [7, 0, 0, 0])) ∧
        l2.capacity = (insertEach list123 (List.replicate 8 [7, 0, 0, 0])).capacity ∧
        l2.dataTypeSize = (insertEach list123 (List.replicate 8 [7, 0, 0, 0])).dataTypeSize) ∧
      (insertEach list123 (List.replicate 8 [7, 0, 0, 0])).size = 11 ∧
      (insertEach list123 (List.replicate 8 [7, 0, 0, 0])).capacity = 20 ∧
      arr_insertAll list123 8 (List.replicate 8 [7, 0, 0, 0]) (fun _ => true) 64
        = some (0, insertEach list123 (List.replicate 8 [7, 0, 0, 0])) :=
  ⟨C19_insertAll_is_successive_inserts list123 (List.replicate 8 [7, 0, 0, 0]) (fun _ => true) 64
    (by decide) (by decide) (by decide) (by decide) (fun _ => rfl)
    (GrowthFits.of_fits (by decide)) (by decide), by decide, by decide, by decide⟩

/-- C20: on a list whose size is an `int` value, `arr_deleteFirst` returns 1
and leaves the list as it was exactly when `arr_getIndexOf` returns `-1`, and
otherwise returns 0 and leaves the list that `arr_delete` leaves at the index
that `arr_getIndexOf` returns. -/
theorem C20_deleteFirst_is_search_then_delete (l : ArrayList) (data : List Byte)
    (cmpField : Comparator) (hint : (l.size : Int) ≤ INT_MAX) :
    (arr_getIndexOf l data cmpField = -1 → arr_deleteFirst l data cmpField = (1, l)) ∧
      (arr_getIndexOf l data cmpField ≠ -1 →
        arr_deleteFirst l data cmpField
          = (0, (arr_delete l (arr_getIndexOf l data cmpField)).2)) ∧
      ((arr_deleteFirst l data cmpField).1 = 1 ↔ arr_getIndexOf l data cmpField = -1) := by
  rcases deleteFirst_loop_spec l data cmpField l.size 0 with
    ⟨h1, h2, -⟩ | ⟨k, -, hk, -, -, h5, h6⟩
  · have e1 : arr_deleteFirst l data cmpField = (1, l) := h1
    have e2 : arr_getIndexOf l data cmpField = -1 := h2
    rw [e1, e2]
    exact ⟨fun _ => rfl, fun h => absurd rfl h, fun _ => rfl, fun _ => rfl⟩
  · have e1 : arr_deleteFirst l data cmpField = (0, (arr_delete l (toInt k)).2) := h5
    have e2 : arr_getIndexOf l data cmpField = toInt k := h6
    have hne : toInt k ≠ -1 := toInt_nonneg_of_le (by omega)
    rw [e1, e2]
    refine ⟨fun h => absurd h hne, fun _ => rfl, fun h => ?_, fun h => absurd h hne⟩
    exact absurd (show (0 : Int) = 1 from h) (by decide)

/-- C20 at `[10, 20, 30]`: the target 20 is found at index 1 and deleted
there; the target 99 is not found and nothing changes. -/
theorem C20_deleteFirst_is_search_then_delete_witness :
    ((arr_getIndexOf list123 [20, 0, 0, 0] none = -1 →
          arr_deleteFirst list123 [20, 0, 0, 0] none = (1, list123)) ∧
        (arr_getIndexOf list123 [20, 0, 0, 0] none ≠ -1 →
          arr_deleteFirst list123 [20, 0, 0, 0] none
            = (0, (arr_delete list123 (arr_getIndexOf list123 [20, 0, 0, 0] none)).2)) ∧
        ((arr_deleteFirst list123 [20, 0, 0, 0] none).1 = 1 ↔
          arr_getIndexOf list123 [20, 0, 0, 0] none = -1)) ∧
      arr_deleteFirst list123 [20, 0, 0, 0] none = (0, (arr_delete list123 1).2) ∧
      arr_deleteFirst list123 [99, 0, 0, 0] none = (1, list123) :=
  ⟨C20_deleteFirst_is_search_then_delete list123 [20, 0, 0, 0] none (by decide),
    by decide, by decide⟩

end ArrayListC
